import Mathlib

/-!
# Verification of the subtitles-fusion engine (logic.ts)

Shallow embedding of the core of `src/logic.ts` of the subtitles-fusion
repository: the interval utilities (`srtTimeToMs`, `hasIntersection`), the
vocabulary classifier (`normalizeWords`, `isProperNoun`,
`getContractionExpansion`, `isWordKnown`), the per-track overlap merger
(`mergeOverlappingSubtitles`) and the fusion engine (`fuseSubtitles`).

Modelling conventions:
* JS strings are Lean `String`; character classes (`\p{L}`, `\p{N}`, `\p{P}`,
  `\s`) are modelled on their ASCII fragment (all inputs in the claims are
  ASCII).
* JS numbers reaching arithmetic are `Int` (timestamps in milliseconds).
* The external collaborators (the python lemmatizer subprocess and the
  inline-translation service backed by the DeepL client) are parameters of
  the embedded `fuseSubtitles`; every theorem quantifies over them.
* Console logging and the `debugShown` counter of the source have no
  observable effect on the returned data and are dropped.
-/

/-- The apostrophe character (codepoint 39), written via `Char.ofNat`. -/
def aposChar : Char := Char.ofNat 39

/-- ASCII fragment of the JS `\s` class (space, tab, LF, VT, FF, CR). -/
def jsIsWs (c : Char) : Bool :=
  c = ' ' || c = Char.ofNat 9 || c = Char.ofNat 10 || c = Char.ofNat 11 ||
  c = Char.ofNat 12 || c = Char.ofNat 13

/-- Value of a list of decimal digit characters. -/
def digitsToNat (ds : List Char) : Nat :=
  ds.foldl (fun n c => n * 10 + (c.toNat - 48)) 0

/-- Splits a character list at every character satisfying `p` (the JS
`String.prototype.split` with a single-character class: empty fields are
kept). Structural replacement for `String.split`, which does not reduce in
the kernel. -/
def jsSplitCharAux (p : Char → Bool) : List Char → List Char → List String
  | [], cur => [String.mk cur.reverse]
  | c :: cs, cur =>
    if p c then String.mk cur.reverse :: jsSplitCharAux p cs []
    else jsSplitCharAux p cs (c :: cur)

/-- JS `s.split(pred-class)`. -/
def jsSplitChar (p : Char → Bool) (s : String) : List String :=
  jsSplitCharAux p s.toList []

/-- Model of JS `parseInt(s, 10)`: skip leading whitespace, optional sign,
then the longest prefix of decimal digits; `none` models `NaN`. -/
def jsParseInt (s : String) : Option Int :=
  let core : List Char → Option Int := fun l =>
    let ds := l.takeWhile Char.isDigit
    if ds.isEmpty then none else some ((digitsToNat ds : Nat) : Int)
  match s.toList.dropWhile jsIsWs with
  | [] => none
  | c :: rest =>
    if c = '-' then (core rest).map (fun n => -n)
    else if c = '+' then core rest
    else core (c :: rest)

/-- Embeds `srtTimeToMs` of logic.ts: split the timestamp on `:` and `,`,
parse the four fields with `parseInt`; any `NaN` field yields `0`.
(The `try`/`catch` of the source is dead in this total model.)
A missing field is modelled, as in JS, by `parseInt` applied to the string
printed for `undefined`, which is `NaN`. -/
def srtTimeToMs (time : String) : Int :=
  let parts := jsSplitChar (fun c => c = ':' || c = ',') time
  match jsParseInt (parts.getD 0 "undefined"), jsParseInt (parts.getD 1 "undefined"),
        jsParseInt (parts.getD 2 "undefined"), jsParseInt (parts.getD 3 "undefined") with
  | some h, some m, some s, some ms => h * 3600000 + m * 60000 + s * 1000 + ms
  | _, _, _, _ => 0

/-- Embeds `hasIntersection` of logic.ts: the two intervals, converted to
milliseconds, intersect on strictly more than 500 ms. -/
def hasIntersection (start1 end1 start2 end2 : String) : Bool :=
  let start1Ms := srtTimeToMs start1
  let end1Ms := srtTimeToMs end1
  let start2Ms := srtTimeToMs start2
  let end2Ms := srtTimeToMs end2
  let intersectionStart := max start1Ms start2Ms
  let intersectionEnd := min end1Ms end2Ms
  intersectionEnd - intersectionStart > 500

/-- One SRT cue, as in the `Subtitle` interface of logic.ts. -/
structure Subtitle where
  index : String
  start : String
  «end» : String
  text : String
deriving Repr, DecidableEq, Inhabited

/-- Lowercases a string, character by character (ASCII model of JS
`toLowerCase`). -/
def jsToLower (s : String) : String := String.mk (s.toList.map Char.toLower)

/-- Splits on maximal whitespace runs (JS `split(/\s+/)`): a leading or a
trailing run produces an empty field, exactly as in JS. The recursion
consumes at least one character per step, so it is given `fuel ≥ length` as
a structural measure (`jsSplitWsFuel_adequate` shows the fuel is enough). -/
def jsSplitWsFuel : Nat → List Char → List Char → List String
  | 0, _, cur => [String.mk cur.reverse]
  | _ + 1, [], cur => [String.mk cur.reverse]
  | fuel + 1, c :: cs, cur =>
    if jsIsWs c then String.mk cur.reverse :: jsSplitWsFuel fuel (cs.dropWhile jsIsWs) []
    else jsSplitWsFuel fuel cs (c :: cur)

/-- JS `s.split(/\s+/)`. -/
def jsSplitWs (s : String) : List String := jsSplitWsFuel s.toList.length s.toList []

/-- Embeds the `stripHtml` helper of logic.ts (`replace(/<[^>]*>/g, "")`):
from each `<` that is followed by a later `>`, drop everything up to and
including that first `>`; a `<` with no later `>` matches nothing. Each
step consumes at least one character, so `fuel ≥ length` is a structural
measure (`stripHtmlFuel_adequate`). -/
def stripHtmlFuel : Nat → List Char → List Char
  | 0, l => l
  | _ + 1, [] => []
  | fuel + 1, c :: cs =>
    let post := cs.dropWhile (fun d => !(d = '>'))
    if c = '<' && !post.isEmpty then stripHtmlFuel fuel post.tail
    else c :: stripHtmlFuel fuel cs

/-- JS `stripHtml`. -/
def stripHtml (s : String) : String := String.mk (stripHtmlFuel s.toList.length s.toList)

/-- Embeds `normalizeWords` of logic.ts: every character outside
the class of letters, digits, whitespace and apostrophe (ASCII model)
becomes a space, the text is lowercased and split on whitespace, and empty
fields are dropped (`filter(Boolean)`). -/
def normalizeWords (text : String) : List String :=
  let replaced := text.toList.map fun c =>
    if c.isAlpha || c.isDigit || jsIsWs c || c = aposChar then c else ' '
  let lowered := replaced.map Char.toLower
  (jsSplitWsFuel lowered.length lowered []).filter (fun w => !(w == ""))

/-- ASCII fragment of the Unicode punctuation class `\p{P}` used by
`isProperNoun` (`$ + < = > ^ | ~` are symbols, not punctuation). -/
def isPunctJs (c : Char) : Bool :=
  c = '!' || c = '"' || c = '#' || c = '%' || c = '&' || c = aposChar ||
  c = '(' || c = ')' || c = '*' || c = ',' || c = '-' || c = '.' ||
  c = '/' || c = ':' || c = ';' || c = '?' || c = '@' || c = '[' ||
  c = Char.ofNat 92 || c = ']' || c = '_' || c = Char.ofNat 123 || c = Char.ofNat 125

/-- Drops leading and trailing punctuation
(JS `replace(/^[\p{P}]+|[\p{P}]+$/gu, "")`). -/
def jsStripPunct (l : List Char) : List Char :=
  ((l.dropWhile isPunctJs).reverse.dropWhile isPunctJs).reverse

/-- JS `String.prototype.trim` on the character list. -/
def jsTrim (l : List Char) : List Char :=
  ((l.dropWhile jsIsWs).reverse.dropWhile jsIsWs).reverse

/-- The cleaned word of `isProperNoun`: markup stripped
(`replace(/<[^>]*>/g, "")`), then leading and trailing punctuation
stripped. -/
def cleanedWordOf (word : String) : String :=
  String.mk (jsStripPunct (stripHtml word).toList)

/-- The capitalization test of `isProperNoun`
(`cleanedWord[0] !== cleanedWord[0].toUpperCase() ||
cleanedWord.toLowerCase() === cleanedWord` negated): nonempty, first
character fixed by `toUpperCase`, and changed by lowercasing. -/
def jsCapitalized (w : String) : Bool :=
  match w.toList with
  | [] => false
  | c0 :: _ => (c0 = c0.toUpper) && !(jsToLower w = w)

/-- The first word of the sentence: the longest leading run of letters,
digits, apostrophes and hyphens after `trim()` (the empty string when
there is no such run). -/
def firstAlnumToken (sentence : String) : String :=
  String.mk ((jsTrim sentence.toList).takeWhile fun c =>
    c.isAlpha || c.isDigit || c = aposChar || c = '-')

/-- Embeds `isProperNoun` of logic.ts. The known-word set (`frequencyList`,
a JS `Set<string>`) is modelled by a list queried through `contains`. An
empty cleaned word, or one failing the capitalization test, is never a
proper noun; a capitalized sentence-initial word is a proper noun iff its
lowercase form is absent from the set; any other capitalized word is a
proper noun. -/
def isProperNoun (word : String) (sentence : String) (frequencyList : List String) : Bool :=
  let cleanedWord := cleanedWordOf word
  if cleanedWord = "" then false
  else if !jsCapitalized cleanedWord then false
  else if cleanedWord = firstAlnumToken sentence then
    if frequencyList.contains (jsToLower cleanedWord) then false else true
  else true

/-- The apostrophe as a one-character string. -/
def apS : String := String.mk [aposChar]

/-- Builds a contraction surface form: `a`, an apostrophe, then `b`. -/
def ct (a b : String) : String := a ++ apS ++ b

/-- Embeds the `ENGLISH_CONTRACTIONS` table of logic.ts, in source order.
The four `I`-keys carry a capital `I` exactly as in the source (so a
lowercased lookup never finds them, as in the JS object access). -/
def ENGLISH_CONTRACTIONS : List (String × List String) := [
  (ct "you" "re", ["you", "are"]),
  (ct "you" "ll", ["you", "will"]),
  (ct "you" "ve", ["you", "have"]),
  (ct "you" "d", ["you", "would"]),
  (ct "I" "m", ["I", "am"]),
  (ct "I" "ll", ["I", "will"]),
  (ct "I" "ve", ["I", "have"]),
  (ct "I" "d", ["I", "would"]),
  (ct "we" "re", ["we", "are"]),
  (ct "we" "ll", ["we", "will"]),
  (ct "we" "ve", ["we", "have"]),
  (ct "we" "d", ["we", "would"]),
  (ct "they" "re", ["they", "are"]),
  (ct "they" "ll", ["they", "will"]),
  (ct "they" "ve", ["they", "have"]),
  (ct "they" "d", ["they", "would"]),
  (ct "he" "s", ["he", "is"]),
  (ct "he" "ll", ["he", "will"]),
  (ct "he" "d", ["he", "would"]),
  (ct "she" "s", ["she", "is"]),
  (ct "she" "ll", ["she", "will"]),
  (ct "she" "d", ["she", "would"]),
  (ct "it" "s", ["it", "is"]),
  (ct "it" "ll", ["it", "will"]),
  (ct "it" "d", ["it", "would"]),
  (ct "don" "t", ["do", "not"]),
  (ct "doesn" "t", ["does", "not"]),
  (ct "didn" "t", ["did", "not"]),
  (ct "can" "t", ["can", "not"]),
  (ct "couldn" "t", ["could", "not"]),
  (ct "won" "t", ["will", "not"]),
  (ct "wouldn" "t", ["would", "not"]),
  (ct "shouldn" "t", ["should", "not"]),
  (ct "mustn" "t", ["must", "not"]),
  (ct "haven" "t", ["have", "not"]),
  (ct "hasn" "t", ["has", "not"]),
  (ct "hadn" "t", ["had", "not"]),
  (ct "isn" "t", ["is", "not"]),
  (ct "aren" "t", ["are", "not"]),
  (ct "wasn" "t", ["was", "not"]),
  (ct "weren" "t", ["were", "not"]),
  (ct "that" "s", ["that", "is"]),
  (ct "that" "ll", ["that", "will"]),
  (ct "that" "d", ["that", "would"]),
  (ct "there" "s", ["there", "is"]),
  (ct "there" "ll", ["there", "will"]),
  (ct "there" "d", ["there", "would"]),
  (ct "here" "s", ["here", "is"]),
  (ct "here" "ll", ["here", "will"]),
  (ct "here" "d", ["here", "would"]),
  (ct "who" "s", ["who", "is"]),
  (ct "who" "ll", ["who", "will"]),
  (ct "who" "d", ["who", "would"]),
  (ct "what" "s", ["what", "is"]),
  (ct "what" "ll", ["what", "will"]),
  (ct "what" "d", ["what", "would"]),
  (ct "where" "s", ["where", "is"]),
  (ct "where" "ll", ["where", "will"]),
  (ct "where" "d", ["where", "would"]),
  (ct "when" "s", ["when", "is"]),
  (ct "when" "ll", ["when", "will"]),
  (ct "when" "d", ["when", "would"]),
  (ct "why" "s", ["why", "is"]),
  (ct "why" "ll", ["why", "will"]),
  (ct "why" "d", ["why", "would"]),
  (ct "how" "s", ["how", "is"]),
  (ct "how" "ll", ["how", "will"]),
  (ct "how" "d", ["how", "would"]),
  (ct "let" "s", ["let", "us"]),
  (ct "ma" "am", ["madam"]),
  (ct "o" "clock", ["of", "the", "clock"]),
  (ct "y" "all", ["you", "all"]),
  ("gonna", ["going", "to"]),
  ("wanna", ["want", "to"]),
  ("gotta", ["got", "to"]),
  ("lemme", ["let", "me"]),
  ("gimme", ["give", "me"]),
  ("outta", ["out", "of"]),
  ("kinda", ["kind", "of"]),
  ("sorta", ["sort", "of"]),
  ("lotta", ["lot", "of"]),
  ("lotsa", ["lots", "of"]),
  ("cuppa", ["cup", "of"]),
  (ct "ain" "t", ["am", "not"])]

/-- JS `w.charAt(0).toUpperCase() + w.slice(1)`. -/
def capFirstJs (w : String) : String :=
  match w.toList with
  | [] => ""
  | c :: rest => String.mk (c.toUpper :: rest)

/-- Embeds `getContractionExpansion` of logic.ts: look the lowercased word
up in the table; when found and the original first character is uppercase,
capitalize the first expansion component. -/
def getContractionExpansion (word : String) : Option (List String) :=
  let wordLower := jsToLower word
  match ENGLISH_CONTRACTIONS.lookup wordLower with
  | some expansion =>
    match word.toList with
    | c :: _ =>
      if c = c.toUpper then
        some (expansion.enum.map fun p => if p.1 = 0 then capFirstJs p.2 else p.2)
      else some expansion
    | [] => some expansion  -- unreachable: the empty string is not a table key
  | none => none

/-- Embeds `isWordKnown` of logic.ts: direct membership of the lowercased
word, else (English only) contraction expansion with every component known. -/
def isWordKnown (word : String) (knownWords : List String) (language : String) : Bool :=
  let wordLower := jsToLower word
  if knownWords.contains wordLower then true
  else if language = "en" then
    match getContractionExpansion word with
    | some expansion => expansion.all fun w => knownWords.contains (jsToLower w)
    | none => false
  else false

/-! ## Fusion engine (`fuseSubtitles`)

The two external collaborators are parameters:
* `lemmatize` models one call of `lemmatizeSingleLine(line, language)` (the
  python subprocess). Its null/error branch of the source is dead in this
  total model: the function always returns a list.
* `ServiceFn` models `InlineTranslationService.processSubtitleWithInlineTranslation`
  (whose source file is not part of the repository snapshot): it receives the
  current cue, the target track, the unknown words and the known words, and
  either returns a result object or throws. The source also passes the
  `isProperNoun` function itself, a constant, which is omitted here.
Console logging and `debugShown` are dropped (no observable effect). -/

/-- The result object of the inline-translation collaborator, as consumed by
`fuseSubtitles` (`translationApplied`, `text`, `error`). -/
structure InlineResult where
  translationApplied : Bool
  text : String
  error : Option String
deriving Repr, DecidableEq, Inhabited

/-- A collaborator call either resolves to a result or throws. -/
inductive InlineOutcome where
  | ok (result : InlineResult)
  | thrown
deriving Repr, DecidableEq, Inhabited

/-- The inline-translation collaborator:
cue → target track → unknown words → known words → outcome. -/
def ServiceFn : Type :=
  Subtitle → List Subtitle → List String → List String → InlineOutcome

/-- JS `Set<string>.add`: append only when absent. -/
def setAdd (l : List String) (s : String) : List String :=
  if l.contains s then l else l ++ [s]

/-- JS `map.set(w, (map.get(w) || 0) + 1)` on an insertion-ordered map. -/
def bumpTranslated : List (String × Nat) → String → List (String × Nat)
  | [], w => [(w, 1)]
  | (k, n) :: rest, w =>
    if k = w then (k, n + 1) :: rest else (k, n) :: bumpTranslated rest w

/-- The anonymous `combinedNativeSub` object of the source. -/
structure CombinedSub where
  text : String
  start : String
  «end» : String
deriving Repr, DecidableEq, Inhabited

/-- `nativeSubs.filter(nativeSub => hasIntersection(currentTargetSub.start,
currentTargetSub.end, nativeSub.start, nativeSub.end))`. -/
def intersectingNativeSubsOf (nativeSubs : List Subtitle) (currentTargetSub : Subtitle) :
    List Subtitle :=
  nativeSubs.filter fun nativeSub =>
    hasIntersection currentTargetSub.start currentTargetSub.«end» nativeSub.start nativeSub.«end»

/-- The combined native span: concatenated texts, start of the first and
end of the last member (in native track order). -/
def combineNativeSubs (l : List Subtitle) : CombinedSub :=
  { text := String.intercalate "\n" (l.map (·.text)),
    start := (l.headD default).start,
    «end» := (l.getLastD default).«end» }

/-- The second scan of the target track: all not-yet-consumed target cues
overlapping the combined native span, in target track order. -/
def overlappingTargetSubsOf (targetSubs : List Subtitle) (processed : List String)
    (combined : CombinedSub) : List Subtitle :=
  targetSubs.filter fun sub =>
    !processed.contains sub.index &&
      hasIntersection combined.start combined.«end» sub.start sub.«end»

/-- Word classification of one target cue (the body of the
`unknownWords` filter in `fuseSubtitles`): lemma known / proper noun /
all-digit number, positionally aligned with the whitespace tokens of the
raw text; returns the unknown lemmas. -/
def unknownWordsOf (lemmatize : String → List String) (knownWords : List String)
    (language : String) (currentTargetSub : Subtitle) : List String :=
  let currentLine := String.intercalate " " (normalizeWords (stripHtml currentTargetSub.text))
  let lemmatizedWords := lemmatize currentLine
  let originalWords := jsSplitWs (stripHtml currentTargetSub.text)
  (lemmatizedWords.enum.filter fun p =>
    let word := p.2
    -- JS `originalWords[j] || word`: an out-of-range access or an empty
    -- token falls back to the lemma itself
    let origWord := match originalWords.getD p.1 "" with
      | "" => word
      | s => s
    let isKnown := isWordKnown word knownWords language
    let isProper := isProperNoun origWord currentTargetSub.text knownWords
    let isNumber := !word.toList.isEmpty && word.toList.all Char.isDigit
    !isKnown && !isProper && !isNumber).map (·.2)

/-- The running state of one `fuseSubtitles` run: the counters, the emitted
cues and the consumed-index set. -/
structure FuseState where
  replacedCount : Nat := 0
  replacedWithOneUnknown : Nat := 0
  inlineTranslationCount : Nat := 0
  errorCount : Nat := 0
  translatedWords : List (String × Nat) := []
  finalSubtitles : List Subtitle := []
  processedTargetIndices : List String := []
deriving Repr, DecidableEq, Inhabited

/-- Emit the cue unchanged and consume its index (the `Kept` outcomes). -/
def fuseKeep (st : FuseState) (currentTargetSub : Subtitle) : FuseState :=
  { st with finalSubtitles := st.finalSubtitles ++ [currentTargetSub],
            processedTargetIndices := setAdd st.processedTargetIndices currentTargetSub.index }

/-- The multi-unknown-word replace path of `fuseSubtitles`: native cues
overlapping the current cue, the combined native span, the second target
scan, one replacement cue spanning from the first to the last overlapping
target cue, every overlapping target index consumed. -/
def fuseMultiPath (targetSubs nativeSubs : List Subtitle) (st : FuseState)
    (currentTargetSub : Subtitle) : FuseState :=
  let intersecting := intersectingNativeSubsOf nativeSubs currentTargetSub
  if intersecting.isEmpty then fuseKeep st currentTargetSub
  else
    let combinedNativeSub := combineNativeSubs intersecting
    let overlappingTargetSubs :=
      overlappingTargetSubsOf targetSubs st.processedTargetIndices combinedNativeSub
    if overlappingTargetSubs.isEmpty then fuseKeep st currentTargetSub
    else
      let replacementSub : Subtitle :=
        { index := "",
          start := (overlappingTargetSubs.headD default).start,
          «end» := (overlappingTargetSubs.getLastD default).«end»,
          text := combinedNativeSub.text }
      { st with
          finalSubtitles := st.finalSubtitles ++ [replacementSub],
          replacedCount := st.replacedCount + overlappingTargetSubs.length,
          processedTargetIndices :=
            overlappingTargetSubs.foldl (fun p sub => setAdd p sub.index)
              st.processedTargetIndices }

/-- The single-unknown-word inline-translation path of `fuseSubtitles`,
with its three outcomes: applied / error with single-cue replace-or-keep
fallback / not applied, and the catch branch. -/
def fuseSinglePath (nativeSubs : List Subtitle) (st : FuseState) (currentTargetSub : Subtitle)
    (outcome : InlineOutcome) (unknownWords : List String) : FuseState :=
  match outcome with
  | .thrown =>
    fuseKeep { st with errorCount := st.errorCount + 1 } currentTargetSub
  | .ok result =>
    if result.translationApplied then
      { st with
          inlineTranslationCount := st.inlineTranslationCount + 1,
          translatedWords := bumpTranslated st.translatedWords (unknownWords.headD ""),
          finalSubtitles := st.finalSubtitles ++ [{ currentTargetSub with text := result.text }],
          processedTargetIndices := setAdd st.processedTargetIndices currentTargetSub.index }
    else
      match result.error with
      | some _ =>
        let intersecting := intersectingNativeSubsOf nativeSubs currentTargetSub
        if !intersecting.isEmpty then
          let combinedNativeSub := combineNativeSubs intersecting
          let replacementSub : Subtitle :=
            { index := "", start := currentTargetSub.start, «end» := currentTargetSub.«end»,
              text := combinedNativeSub.text }
          { st with
              errorCount := st.errorCount + 1,
              finalSubtitles := st.finalSubtitles ++ [replacementSub],
              replacedCount := st.replacedCount + 1,
              replacedWithOneUnknown := st.replacedWithOneUnknown + 1,
              processedTargetIndices := setAdd st.processedTargetIndices currentTargetSub.index }
        else fuseKeep { st with errorCount := st.errorCount + 1 } currentTargetSub
      | none => fuseKeep st currentTargetSub

/-- One iteration of the `fuseSubtitles` loop for `currentTargetSub`. -/
def fuseStep (targetSubs nativeSubs : List Subtitle) (knownWords : List String)
    (language : String) (lemmatize : String → List String)
    (inlineTranslationService : Option ServiceFn) (st : FuseState)
    (currentTargetSub : Subtitle) : FuseState :=
  if st.processedTargetIndices.contains currentTargetSub.index then st
  else
    let unknownWords := unknownWordsOf lemmatize knownWords language currentTargetSub
    if unknownWords.length = 0 then fuseKeep st currentTargetSub
    else
      match inlineTranslationService with
      | some f =>
        if unknownWords.length = 1 then
          fuseSinglePath nativeSubs st currentTargetSub
            (f currentTargetSub targetSubs unknownWords knownWords) unknownWords
        else fuseMultiPath targetSubs nativeSubs st currentTargetSub
      | none => fuseMultiPath targetSubs nativeSubs st currentTargetSub

/-- The return object of `fuseSubtitles`. -/
structure FuseResult where
  hybrid : List Subtitle
  replacedCount : Nat
  replacedWithOneUnknown : Nat
  inlineTranslationCount : Nat
  errorCount : Nat
  translatedWords : List (String × Nat)
deriving Repr, DecidableEq, Inhabited

/-- Embeds `fuseSubtitles` of logic.ts: fold the per-cue state machine over
the target track in order, then re-index the emitted cues `1..N`. -/
def fuseSubtitles (targetSubs nativeSubs : List Subtitle) (knownWords : List String)
    (language : String) (lemmatize : String → List String)
    (inlineTranslationService : Option ServiceFn) : FuseResult :=
  let final := targetSubs.foldl
    (fuseStep targetSubs nativeSubs knownWords language lemmatize inlineTranslationService)
    {}
  let reIndexedHybrid := final.finalSubtitles.enum.map fun p =>
    { p.2 with index := toString (p.1 + 1) }
  { hybrid := reIndexedHybrid,
    replacedCount := final.replacedCount,
    replacedWithOneUnknown := final.replacedWithOneUnknown,
    inlineTranslationCount := final.inlineTranslationCount,
    errorCount := final.errorCount,
    translatedWords := final.translatedWords }

/-- Embeds the `getTargetLanguage` helper of logic.ts (used only to
configure the external translation collaborator). -/
def getTargetLanguage (sourceLang : String) (nativeLang : Option String) : String :=
  match nativeLang with
  | some l => l
  | none =>
    let languageMap : List (String × String) :=
      [("en", "fr"), ("fr", "en"), ("pt", "en"), ("es", "en"), ("de", "en"), ("it", "en")]
    (languageMap.lookup sourceLang).getD "en"

/-! ## Overlap merger (`mergeOverlappingSubtitles`)

The source annotates each cue with its times in milliseconds, then grows,
for each still unprocessed position, a group by repeatedly scanning all
positions for one overlapping any current group member (raw positive
overlap `startMs < other.endMs && other.startMs < endMs` — note: not the
500 ms `hasIntersection` predicate), iterating to a fixed point. Positions
model the JS array indices tracked by the `processed` set. The fixed-point
`while` loop is given `length + 1` as structural fuel; every productive
pass consumes at least one unprocessed position, so the fuel is never
exhausted (`growGroup_fixpoint` below). The JS stable `sort` is modelled by
`List.insertionSort`, which is stable, so it produces the identical list. -/

/-- A cue extended with its `startMs`/`endMs` fields (`subtitlesWithMs`). -/
structure SubMs extends Subtitle where
  startMs : Int
  endMs : Int
deriving Repr, DecidableEq, Inhabited

/-- The millisecond-conversion step of `mergeOverlappingSubtitles`. -/
def withMs (sub : Subtitle) : SubMs :=
  { toSubtitle := sub, startMs := srtTimeToMs sub.start, endMs := srtTimeToMs sub.«end» }

/-- The raw-overlap test of the merger:
`(groupSub.startMs < other.endMs) && (other.startMs < groupSub.endMs)`. -/
def mergeOverlapsB (groupSub other : SubMs) : Bool :=
  groupSub.startMs < other.endMs && other.startMs < groupSub.endMs

/-- Position `i` of the annotated track (out of range yields `default`;
every access is in range). -/
def subAt (arr : List SubMs) (i : Nat) : SubMs := arr.getD i default

/-- State of one scan of the inner `for` loop: the growing group, the
global processed set (as position lists) and the `foundNewOverlap` flag. -/
structure PassSt where
  group : List Nat
  processed : List Nat
  found : Bool
deriving Repr, DecidableEq, Inhabited

/-- One step of the inner `for` loop at position `j`: skip if processed,
else join the group when `j` overlaps any current member. -/
def passStep (arr : List SubMs) (st : PassSt) (j : Nat) : PassSt :=
  if st.processed.contains j then st
  else if st.group.any (fun g => mergeOverlapsB (subAt arr g) (subAt arr j)) then
    { group := st.group ++ [j], processed := st.processed ++ [j], found := true }
  else st

/-- One full scan of all positions (`for j` with a fresh
`foundNewOverlap := false`). -/
def onePass (arr : List SubMs) (g p : List Nat) : PassSt :=
  (List.range arr.length).foldl (passStep arr) ⟨g, p, false⟩

/-- The `while (foundNewOverlap)` fixed-point loop, with structural fuel. -/
def growGroup (arr : List SubMs) : Nat → List Nat → List Nat → List Nat × List Nat
  | 0, g, p => (g, p)
  | fuel + 1, g, p =>
    let st := onePass arr g p
    if st.found then growGroup arr fuel st.group st.processed else (st.group, st.processed)

/-- The outer `for i` loop: one group per still-unprocessed seed position. -/
def mergeLoop (arr : List SubMs) : List Nat → List Nat → List (List Nat)
  | [], _ => []
  | i :: is, p =>
    if p.contains i then mergeLoop arr is p
    else
      let gp := growGroup arr (arr.length + 1) [i] (p ++ [i])
      gp.1 :: mergeLoop arr is gp.2

/-- The groups (as position lists, in emission order) formed by the merger. -/
def mergeGroups (arr : List SubMs) : List (List Nat) :=
  mergeLoop arr (List.range arr.length) []

/-- Builds the merged cue of one group: sort members by `startMs` (stable),
keep the index and start of the first member, the end of the last member,
and the texts joined with line breaks. -/
def mergedCueOfGroup (arr : List SubMs) (g : List Nat) : Subtitle :=
  let overlappingGroup :=
    List.insertionSort (fun a b => a.startMs ≤ b.startMs) (g.map (subAt arr))
  { index := (overlappingGroup.headD default).index,
    start := (overlappingGroup.headD default).start,
    «end» := (overlappingGroup.getLastD default).«end»,
    text := String.intercalate "\n" (overlappingGroup.map (·.text)) }

/-- Embeds `mergeOverlappingSubtitles` of logic.ts. -/
def mergeOverlappingSubtitles (subtitles : List Subtitle) : List Subtitle :=
  if subtitles.isEmpty then subtitles
  else
    let subtitlesWithMs := subtitles.map withMs
    (mergeGroups subtitlesWithMs).map (mergedCueOfGroup subtitlesWithMs)

/-! ## Claim theorems: interval utilities and vocabulary classifier -/

/-- One edge of the raw-overlap graph on track positions: both positions in
range and strictly positive temporal overlap in milliseconds (the test the
merger uses, with no 500 ms threshold). -/
def rawStep (arr : List SubMs) (a b : Nat) : Prop :=
  a < arr.length ∧ b < arr.length ∧ mergeOverlapsB (subAt arr a) (subAt arr b) = true

/-- Connection by a chain of pairwise raw overlaps. -/
def rawReach (arr : List SubMs) : Nat → Nat → Prop :=
  Relation.ReflTransGen (rawStep arr)

instance : IsTotal SubMs (fun a b : SubMs => a.startMs ≤ b.startMs) :=
  ⟨fun a b => Int.le_total a.startMs b.startMs⟩

instance : IsTrans SubMs (fun a b : SubMs => a.startMs ≤ b.startMs) :=
  ⟨fun _ _ _ h1 h2 => le_trans h1 h2⟩

/-- Every point at or after the start of some member and before the end of
some member is inside a member: the members of one merged group cover,
with half-open integer intervals, a gap-free range. -/
def Cover (M : List SubMs) : Prop :=
  ∀ x : Int, (∃ m ∈ M, m.startMs ≤ x) → (∃ m ∈ M, x < m.endMs) →
    ∃ m ∈ M, m.startMs ≤ x ∧ x < m.endMs

/-- Strict variant of `Cover`: a point strictly after the start of some
member and strictly before the end of some member is strictly inside a
member. -/
def StrictCover (M : List SubMs) : Prop :=
  ∀ x : Int, (∃ m ∈ M, m.startMs < x) → (∃ m ∈ M, x < m.endMs) →
    ∃ m ∈ M, m.startMs < x ∧ x < m.endMs

theorem length_dropWhile_le (p : Char → Bool) (l : List Char) :
    (l.dropWhile p).length ≤ l.length := by
  induction l with
  | nil => simp
  | cons c cs ih =>
    by_cases h : p c
    · simp only [List.dropWhile, h]
      exact Nat.le_trans ih (Nat.le_succ _)
    · simp [List.dropWhile, h]

theorem jsSplitWsFuel_adequate (fuel fuel2 : Nat) (l cur : List Char)
    (h : l.length ≤ fuel) (h2 : l.length ≤ fuel2) :
    jsSplitWsFuel fuel l cur = jsSplitWsFuel fuel2 l cur := by
  induction fuel generalizing fuel2 l cur with
  | zero =>
    have : l = [] := List.length_eq_zero.mp (Nat.le_zero.mp h)
    subst this
    cases fuel2 <;> rfl
  | succ fuel ih =>
    cases l with
    | nil => cases fuel2 <;> rfl
    | cons c cs =>
      cases fuel2 with
      | zero => simp at h2
      | succ fuel2 =>
        have hd := length_dropWhile_le jsIsWs cs
        simp only [List.length_cons] at h h2
        simp only [jsSplitWsFuel]
        split
        · rw [ih fuel2 (cs.dropWhile jsIsWs) [] (by omega) (by omega)]
        · rw [ih fuel2 cs (c :: cur) (by omega) (by omega)]

theorem stripHtmlFuel_adequate (fuel fuel2 : Nat) (l : List Char)
    (h : l.length ≤ fuel) (h2 : l.length ≤ fuel2) :
    stripHtmlFuel fuel l = stripHtmlFuel fuel2 l := by
  induction fuel generalizing fuel2 l with
  | zero =>
    have : l = [] := List.length_eq_zero.mp (Nat.le_zero.mp h)
    subst this
    cases fuel2 <;> rfl
  | succ fuel ih =>
    cases l with
    | nil => cases fuel2 <;> rfl
    | cons c cs =>
      cases fuel2 with
      | zero => simp at h2
      | succ fuel2 =>
        have hd := length_dropWhile_le (fun d => !(d = '>')) cs
        have ht : (cs.dropWhile (fun d => !(d = '>'))).tail.length ≤
            (cs.dropWhile (fun d => !(d = '>'))).length := by
          cases cs.dropWhile (fun d => !(d = '>')) <;> simp
        simp only [List.length_cons] at h h2
        simp only [stripHtmlFuel]
        split
        · exact ih fuel2 _ (by omega) (by omega)
        · rw [ih fuel2 cs (by omega) (by omega)]

/-- Claim C5: `hasIntersection`, after converting its four timestamps to
milliseconds, returns true iff `min(aEnd,bEnd) - max(aStart,bStart)` is
strictly greater than 500 ms; in particular it rejects a 1 ms overlap
(`(0,1000)` vs `(999,2000)`) and accepts a 600 ms overlap (`(0,1000)` vs
`(400,1600)`). -/
theorem c5_overlap_predicate_iff_500ms :
    (∀ start1 end1 start2 end2 : String,
      hasIntersection start1 end1 start2 end2 = true ↔
        500 < min (srtTimeToMs end1) (srtTimeToMs end2) -
          max (srtTimeToMs start1) (srtTimeToMs start2)) ∧
    hasIntersection "00:00:00,000" "00:00:01,000" "00:00:00,999" "00:00:02,000" = false ∧
    hasIntersection "00:00:00,000" "00:00:01,000" "00:00:00,400" "00:00:01,600" = true := by
  refine ⟨fun start1 end1 start2 end2 => ?_, by decide, by decide⟩
  unfold hasIntersection
  exact decide_eq_true_iff

/-- Claim C8: `isWordKnown` returns true iff the lowercased word is in the
known set, or (contraction support: English only) the word expands through
the contraction table and every expansion component is individually known;
in particular the do-not contraction is unknown when only `do` is known
and known when both `do` and `not` are. -/
theorem c8_known_word_contraction_and_semantics :
    (∀ (word : String) (knownWords : List String) (language : String),
      isWordKnown word knownWords language = true ↔
        (knownWords.contains (jsToLower word) = true ∨
          (language = "en" ∧ ∃ expansion,
            getContractionExpansion word = some expansion ∧
            ∀ w ∈ expansion, knownWords.contains (jsToLower w) = true))) ∧
    isWordKnown (ct "don" "t") ["do"] "en" = false ∧
    isWordKnown (ct "don" "t") ["do", "not"] "en" = true := by
  refine ⟨fun word knownWords language => ?_, by decide, by decide⟩
  unfold isWordKnown
  by_cases h1 : knownWords.contains (jsToLower word) = true
  · rw [if_pos h1]
    exact ⟨fun _ => Or.inl h1, fun _ => rfl⟩
  · rw [if_neg h1]
    by_cases h2 : language = "en"
    · subst h2
      rw [if_pos rfl]
      cases hexp : getContractionExpansion word with
      | none =>
        constructor
        · intro h
          exact absurd h Bool.false_ne_true
        · rintro (h | ⟨-, exp2, heq, -⟩)
          · exact absurd h h1
          · cases heq
      | some expansion =>
        simp only [List.all_eq_true]
        constructor
        · intro h
          exact Or.inr ⟨by trivial, expansion, rfl, h⟩
        · rintro (h | ⟨-, exp2, heq, h⟩)
          · exact absurd h h1
          · injection heq with heq2
            subst heq2
            exact h
    · rw [if_neg h2]
      constructor
      · intro h
        exact absurd h Bool.false_ne_true
      · rintro (h | ⟨h, -⟩)
        · exact absurd h h1
        · exact absurd h h2

/-- Claim C9: `isProperNoun`, after stripping markup and edge punctuation,
returns false for a non-capitalized word; for a capitalized word equal to
the first alphanumeric token of the sentence it returns true iff the lowercase
form is absent from the known set; for a capitalized word that is not
sentence-initial it returns true unconditionally — with the two `Paris`
instances of the specification. -/
theorem c9_proper_noun_rule :
    (∀ (word sentence : String) (knownSet : List String),
        jsCapitalized (cleanedWordOf word) = false →
        isProperNoun word sentence knownSet = false) ∧
    (∀ (word sentence : String) (knownSet : List String),
        jsCapitalized (cleanedWordOf word) = true →
        cleanedWordOf word = firstAlnumToken sentence →
        (isProperNoun word sentence knownSet = true ↔
          knownSet.contains (jsToLower (cleanedWordOf word)) = false)) ∧
    (∀ (word sentence : String) (knownSet : List String),
        jsCapitalized (cleanedWordOf word) = true →
        cleanedWordOf word ≠ firstAlnumToken sentence →
        isProperNoun word sentence knownSet = true) ∧
    (isProperNoun "Paris" "Paris is nice." [] = true ∧
     isProperNoun "Paris" "Paris is nice." ["paris"] = false) ∧
    (isProperNoun "Paris" "I love Paris." [] = true ∧
     isProperNoun "Paris" "I love Paris." ["paris"] = true) := by
  refine ⟨?_, ?_, ?_, ⟨by decide, by decide⟩, ⟨by decide, by decide⟩⟩
  · intro word sentence knownSet hcap
    by_cases h0 : cleanedWordOf word = ""
    · simp [isProperNoun, h0]
    · simp [isProperNoun, h0, hcap]
  · intro word sentence knownSet hcap heq
    have h0 : cleanedWordOf word ≠ "" := by
      intro h
      rw [h] at hcap
      exact absurd hcap (by decide)
    have hval : isProperNoun word sentence knownSet =
        (if knownSet.contains (jsToLower (cleanedWordOf word)) then false else true) := by
      unfold isProperNoun
      rw [if_neg h0,
          if_neg (show ¬((!jsCapitalized (cleanedWordOf word)) = true) by rw [hcap]; decide),
          if_pos heq, heq]
    rw [hval]
    by_cases hc : knownSet.contains (jsToLower (cleanedWordOf word)) = true
    · rw [if_pos hc]
      simp only [Bool.false_eq_true, false_iff, Bool.not_eq_false]
      exact hc
    · rw [if_neg hc]
      simp only [Bool.not_eq_true] at hc
      simp only [true_iff]
      exact hc
  · intro word sentence knownSet hcap hne
    have h0 : cleanedWordOf word ≠ "" := by
      intro h
      rw [h] at hcap
      exact absurd hcap (by decide)
    simp [isProperNoun, h0, hcap, hne]

/-- Witness for C9: both hypothesis-bearing parts applied at the `Paris`
instances. -/
theorem c9_proper_noun_rule_witness :
    isProperNoun "Paris" "I love Paris." ["paris"] = true ∧
    (isProperNoun "Paris" "Paris is nice." [] = true ↔
      ([] : List String).contains (jsToLower (cleanedWordOf "Paris")) = false) :=
  ⟨c9_proper_noun_rule.2.2.1 "Paris" "I love Paris." ["paris"] (by decide) (by decide),
   c9_proper_noun_rule.2.1 "Paris" "Paris is nice." [] (by decide) (by decide)⟩

/-! ## Claim theorems: fusion engine -/

/-- Claim C10: consumption is tracked by the index string of the cue, not
by cue identity: an iteration on a cue whose index is already in the set
leaves the state untouched and emits nothing, so of two distinct target
cues sharing an index string, once one is consumed the other contributes no
output cue — shown end-to-end on two distinct cues both labelled `1`. -/
theorem c10_consumption_by_index_string :
    (∀ (targetSubs nativeSubs : List Subtitle) (knownWords : List String)
        (language : String) (lemmatize : String → List String)
        (service : Option ServiceFn) (st : FuseState) (cue : Subtitle),
      st.processedTargetIndices.contains cue.index = true →
      fuseStep targetSubs nativeSubs knownWords language lemmatize service st cue = st) ∧
    (fuseSubtitles
      [⟨"1", "00:00:01,000", "00:00:02,000", "42"⟩,
       ⟨"1", "00:00:10,000", "00:00:11,000", "aaa"⟩]
      [] [] "fr" normalizeWords none).hybrid =
      [⟨"1", "00:00:01,000", "00:00:02,000", "42"⟩] := by
  refine ⟨fun targetSubs nativeSubs knownWords language lemmatize service st cue h => ?_,
    by decide⟩
  unfold fuseStep
  rw [if_pos h]

/-- Witness for C10: the skip equation applied at a concrete consumed cue. -/
theorem c10_consumption_by_index_string_witness :
    fuseStep [] [] [] "fr" normalizeWords none
      { processedTargetIndices := ["7"] }
      ⟨"7", "00:00:01,000", "00:00:02,000", "aaa"⟩ =
      { processedTargetIndices := ["7"] } :=
  c10_consumption_by_index_string.1 [] [] [] "fr" normalizeWords none
    { processedTargetIndices := ["7"] }
    ⟨"7", "00:00:01,000", "00:00:02,000", "aaa"⟩ (by decide)

theorem fuseMultiPath_final (targetSubs nativeSubs : List Subtitle) (st : FuseState)
    (cue : Subtitle) :
    ∃ x, (fuseMultiPath targetSubs nativeSubs st cue).finalSubtitles =
      st.finalSubtitles ++ [x] := by
  unfold fuseMultiPath fuseKeep
  dsimp only
  split
  · exact ⟨cue, rfl⟩
  · split
    · exact ⟨cue, rfl⟩
    · exact ⟨_, rfl⟩

theorem fuseSinglePath_final (nativeSubs : List Subtitle) (st : FuseState) (cue : Subtitle)
    (outcome : InlineOutcome) (unknownWords : List String) :
    ∃ x, (fuseSinglePath nativeSubs st cue outcome unknownWords).finalSubtitles =
      st.finalSubtitles ++ [x] := by
  unfold fuseSinglePath fuseKeep
  rcases outcome with ⟨result⟩ | _
  · dsimp only
    split
    · exact ⟨_, rfl⟩
    · split
      · split
        · exact ⟨_, rfl⟩
        · exact ⟨cue, rfl⟩
      · exact ⟨cue, rfl⟩
  · exact ⟨cue, rfl⟩

theorem fuseStep_final (targetSubs nativeSubs : List Subtitle) (knownWords : List String)
    (language : String) (lemmatize : String → List String) (service : Option ServiceFn)
    (st : FuseState) (cue : Subtitle) :
    ∃ l, (fuseStep targetSubs nativeSubs knownWords language lemmatize service st cue).finalSubtitles =
      st.finalSubtitles ++ l ∧ l.length ≤ 1 := by
  unfold fuseStep
  split
  · exact ⟨[], by simp⟩
  · dsimp only
    by_cases h0 : (unknownWordsOf lemmatize knownWords language cue).length = 0
    · rw [if_pos h0]
      exact ⟨[cue], rfl, by simp⟩
    · rw [if_neg h0]
      cases service with
      | none =>
        obtain ⟨x, hx⟩ := fuseMultiPath_final targetSubs nativeSubs st cue
        exact ⟨[x], by dsimp only; exact hx, by simp⟩
      | some f =>
        dsimp only
        by_cases h1 : (unknownWordsOf lemmatize knownWords language cue).length = 1
        · rw [if_pos h1]
          obtain ⟨x, hx⟩ := fuseSinglePath_final nativeSubs st cue _ _
          exact ⟨[x], hx, by simp⟩
        · rw [if_neg h1]
          obtain ⟨x, hx⟩ := fuseMultiPath_final targetSubs nativeSubs st cue
          exact ⟨[x], hx, by simp⟩

theorem fuseFold_length (targetSubs nativeSubs : List Subtitle) (knownWords : List String)
    (language : String) (lemmatize : String → List String) (service : Option ServiceFn)
    (l : List Subtitle) (st : FuseState) :
    (l.foldl (fuseStep targetSubs nativeSubs knownWords language lemmatize service)
        st).finalSubtitles.length ≤ st.finalSubtitles.length + l.length := by
  induction l generalizing st with
  | nil => simp
  | cons c rest ih =>
    simp only [List.foldl_cons, List.length_cons]
    obtain ⟨d, hd, hlen⟩ :=
      fuseStep_final targetSubs nativeSubs knownWords language lemmatize service st c
    have h2 := ih (fuseStep targetSubs nativeSubs knownWords language lemmatize service st c)
    rw [hd, List.length_append] at h2
    omega

/-- Claim C4: `fuseSubtitles` is total for every choice of tracks, of known
words, of language, of lemmatizer and of inline-translation collaborator
(it is a Lean function, so every failure branch ends in a keep or replace
and no input aborts), its hybrid cue count never exceeds the target cue
count, and the output indices are exactly the strings `"1".."N"` in
emission order. -/
theorem fuseSubtitles_hybrid_eq (targetSubs nativeSubs : List Subtitle)
    (knownWords : List String) (language : String) (lemmatize : String → List String)
    (service : Option ServiceFn) :
    (fuseSubtitles targetSubs nativeSubs knownWords language lemmatize service).hybrid =
      ((targetSubs.foldl
          (fuseStep targetSubs nativeSubs knownWords language lemmatize service)
          {}).finalSubtitles).enum.map
        (fun p => { p.2 with index := toString (p.1 + 1) }) := rfl

theorem c4_never_aborts_bounded_reindexed (targetSubs nativeSubs : List Subtitle)
    (knownWords : List String) (language : String) (lemmatize : String → List String)
    (service : Option ServiceFn) :
    (fuseSubtitles targetSubs nativeSubs knownWords language lemmatize service).hybrid.length ≤
      targetSubs.length ∧
    (fuseSubtitles targetSubs nativeSubs knownWords language lemmatize
        service).hybrid.map (·.index) =
      (List.range (fuseSubtitles targetSubs nativeSubs knownWords language lemmatize
        service).hybrid.length).map (fun i => toString (i + 1)) := by
  rw [fuseSubtitles_hybrid_eq]
  constructor
  · rw [List.length_map, List.enum_length]
    have := fuseFold_length targetSubs nativeSubs knownWords language lemmatize service
      targetSubs {}
    simpa using this
  · rw [List.length_map, List.enum_length, List.map_map]
    have hcomp : ((fun s : Subtitle => s.index) ∘
        fun p : Nat × Subtitle => { p.2 with index := toString (p.1 + 1) }) =
        ((fun i => toString (i + 1)) ∘ Prod.fst) := rfl
    rw [hcomp, ← List.map_map, List.enum_map_fst]

theorem setAdd_contains_self (p : List String) (s : String) :
    (setAdd p s).contains s = true := by
  unfold setAdd
  split
  · assumption
  · simp

theorem setAdd_contains_mono (p : List String) (s t : String)
    (h : p.contains t = true) : (setAdd p s).contains t = true := by
  unfold setAdd
  split
  · exact h
  · simp only [List.elem_eq_mem, decide_eq_true_eq] at h ⊢
    exact List.mem_append_left _ h

theorem foldl_setAdd_mono (l : List Subtitle) (p : List String) (t : String)
    (h : p.contains t = true) :
    (l.foldl (fun p sub => setAdd p sub.index) p).contains t = true := by
  induction l generalizing p with
  | nil => exact h
  | cons c rest ih => exact ih _ (setAdd_contains_mono _ _ _ h)

theorem foldl_setAdd_contains (l : List Subtitle) (p : List String) :
    ∀ sub ∈ l, (l.foldl (fun p sub => setAdd p sub.index) p).contains sub.index = true := by
  induction l generalizing p with
  | nil => intro sub h; cases h
  | cons c rest ih =>
    intro sub h
    rcases List.mem_cons.mp h with h | h
    · subst h
      exact foldl_setAdd_mono rest _ _ (setAdd_contains_self p sub.index)
    · exact ih _ sub h

theorem fuseMultiPath_replace (targetSubs nativeSubs : List Subtitle) (st : FuseState)
    (cue : Subtitle)
    (h3 : intersectingNativeSubsOf nativeSubs cue ≠ [])
    (h4 : overlappingTargetSubsOf targetSubs st.processedTargetIndices
        (combineNativeSubs (intersectingNativeSubsOf nativeSubs cue)) ≠ []) :
    fuseMultiPath targetSubs nativeSubs st cue =
      { st with
          finalSubtitles := st.finalSubtitles ++
            [{ index := "",
               start := ((overlappingTargetSubsOf targetSubs st.processedTargetIndices
                 (combineNativeSubs (intersectingNativeSubsOf nativeSubs cue))).headD
                   default).start,
               «end» := ((overlappingTargetSubsOf targetSubs st.processedTargetIndices
                 (combineNativeSubs (intersectingNativeSubsOf nativeSubs cue))).getLastD
                   default).«end»,
               text := (combineNativeSubs (intersectingNativeSubsOf nativeSubs cue)).text }],
          replacedCount := st.replacedCount + (overlappingTargetSubsOf targetSubs
            st.processedTargetIndices
            (combineNativeSubs (intersectingNativeSubsOf nativeSubs cue))).length,
          processedTargetIndices := (overlappingTargetSubsOf targetSubs
            st.processedTargetIndices
            (combineNativeSubs (intersectingNativeSubsOf nativeSubs cue))).foldl
              (fun p sub => setAdd p sub.index) st.processedTargetIndices } := by
  unfold fuseMultiPath
  dsimp only
  rw [if_neg (by simp only [List.isEmpty_eq_true]; exact h3),
      if_neg (by simp only [List.isEmpty_eq_true]; exact h4)]

/-- Claim C1 (amended): an unconsumed target cue with at least two unknown
words, at least one overlapping native cue, and a nonempty overlapping
target group makes one step emit exactly one replacement cue — text the
combined native text, start the first and end the last overlapping target
cue (in target track order) — and consume every index of that group; the
Bonjour segmentation-mismatch scenario runs end-to-end accordingly, cue #2
being replaced despite zero unknown words. -/
theorem c1_multi_unknown_group_replacement :
    (∀ (targetSubs nativeSubs : List Subtitle) (knownWords : List String)
        (language : String) (lemmatize : String → List String)
        (service : Option ServiceFn) (st : FuseState) (cue : Subtitle),
      st.processedTargetIndices.contains cue.index = false →
      2 ≤ (unknownWordsOf lemmatize knownWords language cue).length →
      intersectingNativeSubsOf nativeSubs cue ≠ [] →
      overlappingTargetSubsOf targetSubs st.processedTargetIndices
          (combineNativeSubs (intersectingNativeSubsOf nativeSubs cue)) ≠ [] →
      (fuseStep targetSubs nativeSubs knownWords language lemmatize service st cue =
        { st with
            finalSubtitles := st.finalSubtitles ++
              [{ index := "",
                 start := ((overlappingTargetSubsOf targetSubs st.processedTargetIndices
                   (combineNativeSubs (intersectingNativeSubsOf nativeSubs cue))).headD
                     default).start,
                 «end» := ((overlappingTargetSubsOf targetSubs st.processedTargetIndices
                   (combineNativeSubs (intersectingNativeSubsOf nativeSubs cue))).getLastD
                     default).«end»,
                 text := (combineNativeSubs (intersectingNativeSubsOf nativeSubs cue)).text }],
            replacedCount := st.replacedCount + (overlappingTargetSubsOf targetSubs
              st.processedTargetIndices
              (combineNativeSubs (intersectingNativeSubsOf nativeSubs cue))).length,
            processedTargetIndices := (overlappingTargetSubsOf targetSubs
              st.processedTargetIndices
              (combineNativeSubs (intersectingNativeSubsOf nativeSubs cue))).foldl
                (fun p sub => setAdd p sub.index) st.processedTargetIndices } ∧
        ∀ sub ∈ overlappingTargetSubsOf targetSubs st.processedTargetIndices
            (combineNativeSubs (intersectingNativeSubsOf nativeSubs cue)),
          (fuseStep targetSubs nativeSubs knownWords language lemmatize service st
              cue).processedTargetIndices.contains sub.index = true)) ∧
    (fuseSubtitles
      [⟨"1", "00:00:01,200", "00:00:02,000", "aaa bbb"⟩,
       ⟨"2", "00:00:02,100", "00:00:03,800", "42"⟩]
      [⟨"1", "00:00:01,000", "00:00:04,000", "Bonjour"⟩]
      [] "fr" normalizeWords none).hybrid =
      [⟨"1", "00:00:01,200", "00:00:03,800", "Bonjour"⟩] := by
  refine ⟨fun targetSubs nativeSubs knownWords language lemmatize service st cue
    h1 h2 h3 h4 => ?_, by decide⟩
  have hstep : fuseStep targetSubs nativeSubs knownWords language lemmatize service st cue =
      fuseMultiPath targetSubs nativeSubs st cue := by
    unfold fuseStep
    rw [if_neg (by simp only [h1]; exact Bool.false_ne_true)]
    dsimp only
    rw [if_neg (by omega)]
    cases service with
    | none => rfl
    | some f =>
      dsimp only
      rw [if_neg (by omega)]
  rw [hstep, fuseMultiPath_replace targetSubs nativeSubs st cue h3 h4]
  refine ⟨rfl, fun sub hsub => ?_⟩
  exact foldl_setAdd_contains _ _ sub hsub

/-- Witness for C1 at the Bonjour scenario: the first target cue is
unconsumed, has two unknown words, one overlapping native cue and a
two-cue overlapping target group, and the step equation applies. -/
theorem c1_multi_unknown_group_replacement_witness :
    fuseStep
      [⟨"1", "00:00:01,200", "00:00:02,000", "aaa bbb"⟩,
       ⟨"2", "00:00:02,100", "00:00:03,800", "42"⟩]
      [⟨"1", "00:00:01,000", "00:00:04,000", "Bonjour"⟩]
      [] "fr" normalizeWords none {}
      ⟨"1", "00:00:01,200", "00:00:02,000", "aaa bbb"⟩ =
      { finalSubtitles := [⟨"", "00:00:01,200", "00:00:03,800", "Bonjour"⟩],
        replacedCount := 2,
        processedTargetIndices := ["1", "2"] } := by
  have h := (c1_multi_unknown_group_replacement.1
    [⟨"1", "00:00:01,200", "00:00:02,000", "aaa bbb"⟩,
     ⟨"2", "00:00:02,100", "00:00:03,800", "42"⟩]
    [⟨"1", "00:00:01,000", "00:00:04,000", "Bonjour"⟩]
    [] "fr" normalizeWords none {}
    ⟨"1", "00:00:01,200", "00:00:02,000", "aaa bbb"⟩
    (by decide) (by decide) (by decide) (by decide)).1
  rw [h]
  decide

/-- Counterexample to C1 as stated: with a nested target cue the
replacement cue does not span `[earliest start, latest end]` of the
consumed group — the group of target cues #1 `[1s,9s]` and #2 `[2s,3s)`
(both consumed, `replacedCount = 2`) yields the single output cue
`[1s → 3s]`, whose end is the end of the last group member (3s), strictly
before the latest end of the group (9s). -/
theorem c1_counterexample_span_not_latest_end :
    (fuseSubtitles
      [⟨"1", "00:00:01,000", "00:00:09,000", "aaa bbb"⟩,
       ⟨"2", "00:00:02,000", "00:00:03,000", "ccc"⟩]
      [⟨"1", "00:00:00,000", "00:00:10,000", "NAT"⟩]
      [] "fr" normalizeWords none).hybrid =
      [⟨"1", "00:00:01,000", "00:00:03,000", "NAT"⟩] ∧
    (fuseSubtitles
      [⟨"1", "00:00:01,000", "00:00:09,000", "aaa bbb"⟩,
       ⟨"2", "00:00:02,000", "00:00:03,000", "ccc"⟩]
      [⟨"1", "00:00:00,000", "00:00:10,000", "NAT"⟩]
      [] "fr" normalizeWords none).replacedCount = 2 ∧
    srtTimeToMs "00:00:03,000" < srtTimeToMs "00:00:09,000" := by
  refine ⟨by decide, by decide, by decide⟩

/-! ## Merger infrastructure: the inner pass and the fixed-point loop -/

theorem passFold_spec (arr : List SubMs) (js : List Nat) (st : PassSt) :
    ∃ Δ : List Nat,
      js.foldl (passStep arr) st =
        ⟨st.group ++ Δ, st.processed ++ Δ, st.found || !Δ.isEmpty⟩ ∧
      Δ.Nodup ∧ (∀ x ∈ Δ, x ∈ js ∧ x ∉ st.processed) := by
  induction js generalizing st with
  | nil =>
    refine ⟨[], by simp, List.nodup_nil, by intro x hx; cases hx⟩
  | cons j rest ih =>
    by_cases hp : st.processed.contains j = true
    · have hstep : passStep arr st j = st := by unfold passStep; rw [if_pos hp]
      simp only [List.foldl_cons, hstep]
      obtain ⟨Δ, h1, h2, h3⟩ := ih st
      exact ⟨Δ, h1, h2, fun x hx =>
        ⟨List.mem_cons_of_mem _ (h3 x hx).1, (h3 x hx).2⟩⟩
    · by_cases ho : (st.group.any fun g => mergeOverlapsB (subAt arr g) (subAt arr j)) = true
      · have hstep : passStep arr st j =
            ⟨st.group ++ [j], st.processed ++ [j], true⟩ := by
          unfold passStep; rw [if_neg hp, if_pos ho]
        simp only [List.foldl_cons, hstep]
        obtain ⟨Δ, h1, h2, h3⟩ := ih ⟨st.group ++ [j], st.processed ++ [j], true⟩
        refine ⟨j :: Δ, ?_, ?_, ?_⟩
        · rw [h1]
          simp
        · refine List.nodup_cons.mpr ⟨fun hj => ?_, h2⟩
          have := (h3 j hj).2
          exact this (List.mem_append_right _ (List.mem_singleton_self _))
        · intro x hx
          rcases List.mem_cons.mp hx with h | h
          · subst h
            exact ⟨List.mem_cons_self _ _, by simpa using hp⟩
          · have := h3 x h
            exact ⟨List.mem_cons_of_mem _ this.1,
              fun hmem => this.2 (List.mem_append_left _ hmem)⟩
      · have hstep : passStep arr st j = st := by unfold passStep; rw [if_neg hp, if_neg ho]
        simp only [List.foldl_cons, hstep]
        obtain ⟨Δ, h1, h2, h3⟩ := ih st
        exact ⟨Δ, h1, h2, fun x hx =>
          ⟨List.mem_cons_of_mem _ (h3 x hx).1, (h3 x hx).2⟩⟩

theorem passFold_nogrow (arr : List SubMs) (js : List Nat) (st : PassSt)
    (h : (js.foldl (passStep arr) st).group = st.group) :
    ∀ j ∈ js, st.processed.contains j = true ∨
      (st.group.any fun g => mergeOverlapsB (subAt arr g) (subAt arr j)) = false := by
  induction js generalizing st with
  | nil => intro j hj; cases hj
  | cons j rest ih =>
    intro k hk
    by_cases hp : st.processed.contains j = true
    · have hstep : passStep arr st j = st := by unfold passStep; rw [if_pos hp]
      rw [List.foldl_cons, hstep] at h
      rcases List.mem_cons.mp hk with hkj | hk2
      · subst hkj; exact Or.inl hp
      · exact ih st h k hk2
    · by_cases ho : (st.group.any fun g => mergeOverlapsB (subAt arr g) (subAt arr j)) = true
      · exfalso
        have hstep : passStep arr st j =
            ⟨st.group ++ [j], st.processed ++ [j], true⟩ := by
          unfold passStep; rw [if_neg hp, if_pos ho]
        rw [List.foldl_cons, hstep] at h
        obtain ⟨Δ, h1, -, -⟩ := passFold_spec arr rest ⟨st.group ++ [j], st.processed ++ [j], true⟩
        rw [h1] at h
        have hlen := congrArg List.length h
        simp [List.length_append] at hlen
      · have hstep : passStep arr st j = st := by unfold passStep; rw [if_neg hp, if_neg ho]
        rw [List.foldl_cons, hstep] at h
        rcases List.mem_cons.mp hk with hkj | hk2
        · subst hkj
          exact Or.inr (by simpa using ho)
        · exact ih st h k hk2

theorem growGroup_spec (arr : List SubMs) :
    ∀ (fuel : Nat) (g p : List Nat),
      ∃ Δ : List Nat, growGroup arr fuel g p = (g ++ Δ, p ++ Δ) ∧
        Δ.Nodup ∧ (∀ x ∈ Δ, x < arr.length ∧ x ∉ p) := by
  intro fuel
  induction fuel with
  | zero =>
    intro g p
    exact ⟨[], by simp [growGroup], List.nodup_nil, by intro x hx; cases hx⟩
  | succ fuel ih =>
    intro g p
    obtain ⟨Δ1, h1, h2, h3⟩ := passFold_spec arr (List.range arr.length) ⟨g, p, false⟩
    by_cases hf : (onePass arr g p).found = true
    · have hgrow : growGroup arr (fuel + 1) g p =
          growGroup arr fuel (onePass arr g p).group (onePass arr g p).processed := by
        show (let st := onePass arr g p;
          if st.found = true then growGroup arr fuel st.group st.processed
          else (st.group, st.processed)) =
          growGroup arr fuel (onePass arr g p).group (onePass arr g p).processed
        rw [if_pos hf]
      have hgp : (onePass arr g p).group = g ++ Δ1 ∧ (onePass arr g p).processed = p ++ Δ1 := by
        unfold onePass
        rw [h1]
        exact ⟨rfl, rfl⟩
      obtain ⟨Δ2, h4, h5, h6⟩ := ih (g ++ Δ1) (p ++ Δ1)
      refine ⟨Δ1 ++ Δ2, ?_, ?_, ?_⟩
      · rw [hgrow, hgp.1, hgp.2, h4]
        simp [List.append_assoc]
      · rw [List.nodup_append]
        refine ⟨h2, h5, fun x hx1 hx2 => ?_⟩
        exact (h6 x hx2).2 (List.mem_append_right _ hx1)
      · intro x hx
        rcases List.mem_append.mp hx with h | h
        · exact ⟨List.mem_range.mp (h3 x h).1, (h3 x h).2⟩
        · exact ⟨(h6 x h).1, fun hp2 => (h6 x h).2 (List.mem_append_left _ hp2)⟩
    · have hgrow : growGroup arr (fuel + 1) g p =
          ((onePass arr g p).group, (onePass arr g p).processed) := by
        show (let st := onePass arr g p;
          if st.found = true then growGroup arr fuel st.group st.processed
          else (st.group, st.processed)) =
          ((onePass arr g p).group, (onePass arr g p).processed)
        rw [if_neg hf]
      have hgp : (onePass arr g p).group = g ++ Δ1 ∧ (onePass arr g p).processed = p ++ Δ1 := by
        unfold onePass
        rw [h1]
        exact ⟨rfl, rfl⟩
      refine ⟨Δ1, by rw [hgrow, hgp.1, hgp.2], h2, fun x hx =>
        ⟨List.mem_range.mp (h3 x hx).1, (h3 x hx).2⟩⟩

theorem nodup_bounded_length_le (p : List Nat) (n : Nat) (hnd : p.Nodup)
    (hb : ∀ x ∈ p, x < n) : p.length ≤ n := by
  have hsub : p ⊆ List.range n := fun x hx => List.mem_range.mpr (hb x hx)
  have := (List.subperm_of_subset hnd hsub).length_le
  simpa using this

theorem growGroup_fixpoint (arr : List SubMs) :
    ∀ (fuel : Nat) (g p : List Nat), p.Nodup → (∀ x ∈ p, x < arr.length) →
      arr.length < fuel + p.length →
      (onePass arr (growGroup arr fuel g p).1 (growGroup arr fuel g p).2).found = false := by
  intro fuel
  induction fuel with
  | zero =>
    intro g p hnd hb hlen
    exfalso
    have := nodup_bounded_length_le p arr.length hnd hb
    omega
  | succ fuel ih =>
    intro g p hnd hb hlen
    obtain ⟨Δ1, h1, h2, h3⟩ := passFold_spec arr (List.range arr.length) ⟨g, p, false⟩
    by_cases hf : (onePass arr g p).found = true
    · have hgrow : growGroup arr (fuel + 1) g p =
          growGroup arr fuel (onePass arr g p).group (onePass arr g p).processed := by
        show (let st := onePass arr g p;
          if st.found = true then growGroup arr fuel st.group st.processed
          else (st.group, st.processed)) =
          growGroup arr fuel (onePass arr g p).group (onePass arr g p).processed
        rw [if_pos hf]
      rw [hgrow]
      have hgp : (onePass arr g p).processed = p ++ Δ1 := by
        unfold onePass
        rw [h1]
      have hne : Δ1 ≠ [] := by
        intro he
        unfold onePass at hf
        rw [h1] at hf
        simp [he] at hf
      apply ih
      · rw [hgp, List.nodup_append]
        exact ⟨hnd, h2, fun x hx1 hx2 => (h3 x hx2).2 hx1⟩
      · rw [hgp]
        intro x hx
        rcases List.mem_append.mp hx with h | h
        · exact hb x h
        · exact List.mem_range.mp (h3 x h).1
      · rw [hgp, List.length_append]
        have : 0 < Δ1.length := List.length_pos.mpr hne
        omega
    · have hgrow : growGroup arr (fuel + 1) g p =
          ((onePass arr g p).group, (onePass arr g p).processed) := by
        show (let st := onePass arr g p;
          if st.found = true then growGroup arr fuel st.group st.processed
          else (st.group, st.processed)) =
          ((onePass arr g p).group, (onePass arr g p).processed)
        rw [if_neg hf]
      rw [hgrow]
      have hΔ : Δ1 = [] := by
        rcases Δ1 with - | ⟨y, ys⟩
        · rfl
        · exfalso
          apply hf
          unfold onePass
          rw [h1]
          rfl
      have hg2 : (onePass arr g p).group = g ∧ (onePass arr g p).processed = p := by
        unfold onePass
        rw [h1, hΔ]
        simp
      rw [hg2.1, hg2.2]
      simpa using hf

theorem growGroup_stable (arr : List SubMs) (fuel : Nat) (g p : List Nat)
    (hnd : p.Nodup) (hb : ∀ x ∈ p, x < arr.length) (hlen : arr.length < fuel + p.length) :
    ∀ j, j < arr.length → j ∉ (growGroup arr fuel g p).2 →
      ∀ m ∈ (growGroup arr fuel g p).1,
        mergeOverlapsB (subAt arr m) (subAt arr j) = false := by
  intro j hj hjp m hm
  have hfix := growGroup_fixpoint arr fuel g p hnd hb hlen
  obtain ⟨Δ, h1, -, -⟩ := passFold_spec arr (List.range arr.length)
    ⟨(growGroup arr fuel g p).1, (growGroup arr fuel g p).2, false⟩
  have hΔ : Δ = [] := by
    rcases Δ with - | ⟨y, ys⟩
    · rfl
    · exfalso
      unfold onePass at hfix
      rw [h1] at hfix
      simp at hfix
  have hgrp : (List.foldl (passStep arr)
      ⟨(growGroup arr fuel g p).1, (growGroup arr fuel g p).2, false⟩
      (List.range arr.length)).group = (growGroup arr fuel g p).1 := by
    rw [h1, hΔ]
    simp
  have hng := passFold_nogrow arr (List.range arr.length)
    ⟨(growGroup arr fuel g p).1, (growGroup arr fuel g p).2, false⟩ hgrp j
    (List.mem_range.mpr hj)
  rcases hng with hc | hany
  · exact absurd (by simpa using hc) hjp
  · simp only [List.any_eq_false] at hany
    exact Bool.eq_false_iff.mpr (hany m hm)

theorem mergeOverlapsB_symm (a b : SubMs) : mergeOverlapsB a b = mergeOverlapsB b a := by
  unfold mergeOverlapsB
  rw [Bool.and_comm]

theorem mergeLoop_cons_skip (arr : List SubMs) (i : Nat) (rest p : List Nat)
    (hp : p.contains i = true) :
    mergeLoop arr (i :: rest) p = mergeLoop arr rest p := by
  conv_lhs => unfold mergeLoop
  rw [if_pos hp]

theorem mergeLoop_cons_grow (arr : List SubMs) (i : Nat) (rest p : List Nat)
    (hp : ¬p.contains i = true) :
    mergeLoop arr (i :: rest) p =
      (growGroup arr (arr.length + 1) [i] (p ++ [i])).1 ::
        mergeLoop arr rest (growGroup arr (arr.length + 1) [i] (p ++ [i])).2 := by
  conv_lhs => unfold mergeLoop
  rw [if_neg hp]

theorem mergeLoop_mem_bound (arr : List SubMs) :
    ∀ (is p : List Nat), (∀ i ∈ is, i < arr.length) →
      ∀ G ∈ mergeLoop arr is p, ∀ x ∈ G, x < arr.length ∧ x ∉ p := by
  intro is
  induction is with
  | nil => intro p his G hG; cases hG
  | cons i rest ih =>
    intro p his G hG
    by_cases hp : p.contains i = true
    · rw [mergeLoop_cons_skip arr i rest p hp] at hG
      exact ih p (fun x hx => his x (List.mem_cons_of_mem _ hx)) G hG
    · rw [mergeLoop_cons_grow arr i rest p hp] at hG
      obtain ⟨Δ, h1, h2, h3⟩ := growGroup_spec arr (arr.length + 1) [i] (p ++ [i])
      rw [h1] at hG
      rcases List.mem_cons.mp hG with hG1 | hG2
      · subst hG1
        intro x hx
        rcases List.mem_append.mp hx with hx1 | hx2
        · rw [List.mem_singleton.mp hx1]
          exact ⟨his i (List.mem_cons_self _ _), by simpa using hp⟩
        · exact ⟨(h3 x hx2).1, fun hxp => (h3 x hx2).2 (List.mem_append_left _ hxp)⟩
      · intro x hx
        have := ih ((p ++ [i]) ++ Δ) (fun y hy => his y (List.mem_cons_of_mem _ hy)) G hG2 x hx
        exact ⟨this.1, fun hxp =>
          this.2 (List.mem_append_left _ (List.mem_append_left _ hxp))⟩

theorem mergeLoop_processed_nodup (arr : List SubMs) :
    ∀ (is p : List Nat), p.Nodup → (p ++ (mergeLoop arr is p).flatten).Nodup := by
  intro is
  induction is with
  | nil =>
    intro p hp
    simpa [mergeLoop] using hp
  | cons i rest ih =>
    intro p hp
    by_cases hc : p.contains i = true
    · rw [mergeLoop_cons_skip arr i rest p hc]
      exact ih p hp
    · rw [mergeLoop_cons_grow arr i rest p hc]
      obtain ⟨Δ, h1, h2, h3⟩ := growGroup_spec arr (arr.length + 1) [i] (p ++ [i])
      rw [h1]
      have hpi : (p ++ [i]).Nodup := by
        rw [List.nodup_append]
        refine ⟨hp, List.nodup_singleton _, fun x hx1 hx2 => ?_⟩
        rw [List.mem_singleton.mp hx2] at hx1
        exact (by simpa using hc : i ∉ p) hx1
      have hp2 : ((p ++ [i]) ++ Δ).Nodup := by
        rw [List.nodup_append]
        exact ⟨hpi, h2, fun x hx1 hx2 => (h3 x hx2).2 hx1⟩
      have hres := ih ((p ++ [i]) ++ Δ) hp2
      rw [List.flatten_cons]
      have heq : p ++ (([i] ++ Δ) ++ (mergeLoop arr rest ((p ++ [i]) ++ Δ)).flatten) =
          ((p ++ [i]) ++ Δ) ++ (mergeLoop arr rest ((p ++ [i]) ++ Δ)).flatten := by
        simp [List.append_assoc]
      rw [heq]
      exact hres

theorem mergeLoop_coverage (arr : List SubMs) :
    ∀ (is p : List Nat), ∀ x ∈ is, x ∈ p ++ (mergeLoop arr is p).flatten := by
  intro is
  induction is with
  | nil => intro p x hx; cases hx
  | cons i rest ih =>
    intro p x hx
    by_cases hc : p.contains i = true
    · rw [mergeLoop_cons_skip arr i rest p hc]
      rcases List.mem_cons.mp hx with hxi | hx2
      · subst hxi
        exact List.mem_append_left _ (by simpa using hc)
      · exact ih p x hx2
    · rw [mergeLoop_cons_grow arr i rest p hc]
      obtain ⟨Δ, h1, -, -⟩ := growGroup_spec arr (arr.length + 1) [i] (p ++ [i])
      rw [h1, List.flatten_cons]
      have heq : p ++ (([i] ++ Δ) ++ (mergeLoop arr rest ((p ++ [i]) ++ Δ)).flatten) =
          ((p ++ [i]) ++ Δ) ++ (mergeLoop arr rest ((p ++ [i]) ++ Δ)).flatten := by
        simp [List.append_assoc]
      rw [heq]
      rcases List.mem_cons.mp hx with hxi | hx2
      · subst hxi
        exact List.mem_append_left _ (List.mem_append_left _
          (List.mem_append_right _ (List.mem_singleton_self _)))
      · exact ih ((p ++ [i]) ++ Δ) x hx2

theorem mergeOverlapping_eq_map (subs : List Subtitle) :
    mergeOverlappingSubtitles subs =
      (mergeGroups (subs.map withMs)).map (mergedCueOfGroup (subs.map withMs)) := by
  by_cases h : subs.isEmpty = true
  · rw [List.isEmpty_eq_true.mp h]
    rfl
  · unfold mergeOverlappingSubtitles
    rw [if_neg h]

theorem mergeLoop_closed (arr : List SubMs) :
    ∀ (is p : List Nat), p.Nodup → (∀ y ∈ p, y < arr.length) →
      (∀ i ∈ is, i < arr.length) →
      ∀ G ∈ mergeLoop arr is p, ∀ a ∈ G, ∀ j, j < arr.length → j ∉ p →
        mergeOverlapsB (subAt arr a) (subAt arr j) = true → j ∈ G := by
  intro is
  induction is with
  | nil => intro p _ _ _ G hG; cases hG
  | cons i rest ih =>
    intro p hnd hbp his G hG a ha j hj hjp hedge
    by_cases hc : p.contains i = true
    · rw [mergeLoop_cons_skip arr i rest p hc] at hG
      exact ih p hnd hbp (fun y hy => his y (List.mem_cons_of_mem _ hy)) G hG a ha j hj
        hjp hedge
    · rw [mergeLoop_cons_grow arr i rest p hc] at hG
      obtain ⟨Δ, h1, h2, h3⟩ := growGroup_spec arr (arr.length + 1) [i] (p ++ [i])
      have hi_n : i < arr.length := his i (List.mem_cons_self _ _)
      have hpi_nd : (p ++ [i]).Nodup := by
        rw [List.nodup_append]
        refine ⟨hnd, List.nodup_singleton _, fun x hx1 hx2 => ?_⟩
        rw [List.mem_singleton.mp hx2] at hx1
        exact (by simpa using hc : i ∉ p) hx1
      have hpi_b : ∀ y ∈ p ++ [i], y < arr.length := by
        intro y hy
        rcases List.mem_append.mp hy with h | h
        · exact hbp y h
        · rw [List.mem_singleton.mp h]; exact hi_n
      have hfuel : arr.length < (arr.length + 1) + (p ++ [i]).length := by omega
      have hstab2 : ∀ x, x < arr.length → x ∉ (p ++ [i]) ++ Δ →
          ∀ m ∈ [i] ++ Δ, mergeOverlapsB (subAt arr m) (subAt arr x) = false := by
        intro x hx hxp m hm
        have h := growGroup_stable arr (arr.length + 1) [i] (p ++ [i]) hpi_nd hpi_b hfuel x hx
        rw [h1] at h
        exact h hxp m hm
      rw [h1] at hG
      have hp2_nd : ((p ++ [i]) ++ Δ).Nodup := by
        rw [List.nodup_append]
        exact ⟨hpi_nd, h2, fun x hx1 hx2 => (h3 x hx2).2 hx1⟩
      have hp2_b : ∀ y ∈ (p ++ [i]) ++ Δ, y < arr.length := by
        intro y hy
        rcases List.mem_append.mp hy with h | h
        · exact hpi_b y h
        · exact (h3 y h).1
      rcases List.mem_cons.mp hG with hG1 | hG2
      · subst hG1
        by_cases hjp1 : j ∈ (p ++ [i]) ++ Δ
        · rcases List.mem_append.mp hjp1 with hl | hr
          · rcases List.mem_append.mp hl with hpl | hil
            · exact absurd hpl hjp
            · exact List.mem_append_left _ hil
          · exact List.mem_append_right _ hr
        · exfalso
          have := hstab2 j hj hjp1 a ha
          rw [hedge] at this
          cases this
      · have hjp2 : j ∉ (p ++ [i]) ++ Δ := by
          intro hmem
          have hjg : j ∈ [i] ++ Δ := by
            rcases List.mem_append.mp hmem with hl | hr
            · rcases List.mem_append.mp hl with h | h
              · exact absurd h hjp
              · exact List.mem_append_left _ h
            · exact List.mem_append_right _ hr
          have hamem := mergeLoop_mem_bound arr rest ((p ++ [i]) ++ Δ)
            (fun y hy => his y (List.mem_cons_of_mem _ hy)) G hG2 a ha
          have hfa := hstab2 a hamem.1 hamem.2 j hjg
          rw [mergeOverlapsB_symm, hedge] at hfa
          cases hfa
        exact ih ((p ++ [i]) ++ Δ) hp2_nd hp2_b
          (fun y hy => his y (List.mem_cons_of_mem _ hy)) G hG2 a ha j hj hjp2 hedge

/-- Claim C6: the groups formed by `mergeOverlappingSubtitles` partition the
input cue positions exactly — their concatenation is a permutation of
`0..n-1`, so every input cue lands in exactly one group, none dropped, none
duplicated — and the output is exactly one merged cue per group. -/
theorem c6_merger_partitions_input (subs : List Subtitle) :
    (mergeGroups (subs.map withMs)).flatten.Perm (List.range subs.length) ∧
    mergeOverlappingSubtitles subs =
      (mergeGroups (subs.map withMs)).map (mergedCueOfGroup (subs.map withMs)) := by
  constructor
  · have hn : (subs.map withMs).length = subs.length := List.length_map _ _
    have hnd : (mergeGroups (subs.map withMs)).flatten.Nodup := by
      have := mergeLoop_processed_nodup (subs.map withMs)
        (List.range (subs.map withMs).length) [] List.nodup_nil
      simpa [mergeGroups] using this
    have hext : ∀ x, x ∈ (mergeGroups (subs.map withMs)).flatten ↔
        x ∈ List.range subs.length := by
      intro x
      constructor
      · intro hx
        obtain ⟨G, hG, hxG⟩ := List.mem_flatten.mp hx
        have := mergeLoop_mem_bound (subs.map withMs)
          (List.range (subs.map withMs).length) []
          (fun i hi => List.mem_range.mp hi) G hG x hxG
        exact List.mem_range.mpr (hn ▸ this.1)
      · intro hx
        have := mergeLoop_coverage (subs.map withMs)
          (List.range (subs.map withMs).length) [] x
          (by rw [hn]; exact hx)
        simpa [mergeGroups] using this
    exact (List.perm_ext_iff_of_nodup hnd (List.nodup_range _)).mpr hext
  · exact mergeOverlapping_eq_map subs

theorem rawStep_symm (arr : List SubMs) : Symmetric (rawStep arr) := by
  rintro a b ⟨h1, h2, h3⟩
  exact ⟨h2, h1, by rw [mergeOverlapsB_symm]; exact h3⟩

theorem rawReach_symm (arr : List SubMs) {x y : Nat} (h : rawReach arr x y) :
    rawReach arr y x :=
  Relation.ReflTransGen.symmetric (rawStep_symm arr) h

theorem passFold_group_pres (arr : List SubMs) (P : List Nat → Prop)
    (hstep : ∀ g j, P g → j < arr.length →
      (g.any fun m => mergeOverlapsB (subAt arr m) (subAt arr j)) = true → P (g ++ [j])) :
    ∀ (js : List Nat) (st : PassSt), (∀ j ∈ js, j < arr.length) → P st.group →
      P ((js.foldl (passStep arr) st).group) := by
  intro js
  induction js with
  | nil => intro st _ hP; exact hP
  | cons j rest ih =>
    intro st hjs hP
    rw [List.foldl_cons]
    by_cases hp : st.processed.contains j = true
    · rw [show passStep arr st j = st from by unfold passStep; rw [if_pos hp]]
      exact ih st (fun x hx => hjs x (List.mem_cons_of_mem _ hx)) hP
    · by_cases ho : (st.group.any fun m => mergeOverlapsB (subAt arr m) (subAt arr j)) = true
      · rw [show passStep arr st j = ⟨st.group ++ [j], st.processed ++ [j], true⟩ from by
          unfold passStep; rw [if_neg hp, if_pos ho]]
        exact ih ⟨st.group ++ [j], st.processed ++ [j], true⟩
          (fun x hx => hjs x (List.mem_cons_of_mem _ hx))
          (hstep st.group j hP (hjs j (List.mem_cons_self _ _)) ho)
      · rw [show passStep arr st j = st from by unfold passStep; rw [if_neg hp, if_neg ho]]
        exact ih st (fun x hx => hjs x (List.mem_cons_of_mem _ hx)) hP

theorem growGroup_group_pres (arr : List SubMs) (P : List Nat → Prop)
    (hstep : ∀ g j, P g → j < arr.length →
      (g.any fun m => mergeOverlapsB (subAt arr m) (subAt arr j)) = true → P (g ++ [j])) :
    ∀ (fuel : Nat) (g p : List Nat), P g → P (growGroup arr fuel g p).1 := by
  intro fuel
  induction fuel with
  | zero => intro g p hP; exact hP
  | succ fuel ih =>
    intro g p hP
    have hP1 : P (onePass arr g p).group :=
      passFold_group_pres arr P hstep (List.range arr.length) ⟨g, p, false⟩
        (fun j hj => List.mem_range.mp hj) hP
    by_cases hf : (onePass arr g p).found = true
    · have hgrow : growGroup arr (fuel + 1) g p =
          growGroup arr fuel (onePass arr g p).group (onePass arr g p).processed := by
        show (let st := onePass arr g p;
          if st.found = true then growGroup arr fuel st.group st.processed
          else (st.group, st.processed)) =
          growGroup arr fuel (onePass arr g p).group (onePass arr g p).processed
        rw [if_pos hf]
      rw [hgrow]
      exact ih _ _ hP1
    · have hgrow : growGroup arr (fuel + 1) g p =
          ((onePass arr g p).group, (onePass arr g p).processed) := by
        show (let st := onePass arr g p;
          if st.found = true then growGroup arr fuel st.group st.processed
          else (st.group, st.processed)) =
          ((onePass arr g p).group, (onePass arr g p).processed)
        rw [if_neg hf]
      rw [hgrow]
      exact hP1

theorem mergeGroups_pres (arr : List SubMs) (P : List Nat → Prop)
    (hstep : ∀ g j, P g → j < arr.length →
      (g.any fun m => mergeOverlapsB (subAt arr m) (subAt arr j)) = true → P (g ++ [j]))
    (hbase : ∀ i, i < arr.length → P [i]) :
    ∀ G ∈ mergeGroups arr, P G := by
  have hgen : ∀ (is p : List Nat), (∀ i ∈ is, i < arr.length) →
      ∀ G ∈ mergeLoop arr is p, P G := by
    intro is
    induction is with
    | nil => intro p _ G hG; cases hG
    | cons i rest ih =>
      intro p his G hG
      by_cases hc : p.contains i = true
      · rw [mergeLoop_cons_skip arr i rest p hc] at hG
        exact ih p (fun x hx => his x (List.mem_cons_of_mem _ hx)) G hG
      · rw [mergeLoop_cons_grow arr i rest p hc] at hG
        rcases List.mem_cons.mp hG with hG1 | hG2
        · subst hG1
          exact growGroup_group_pres arr P hstep (arr.length + 1) [i] (p ++ [i])
            (hbase i (his i (List.mem_cons_self _ _)))
        · exact ih _ (fun x hx => his x (List.mem_cons_of_mem _ hx)) G hG2
  exact hgen (List.range arr.length) [] (fun i hi => List.mem_range.mp hi)

theorem mergeGroups_bounded_connected (arr : List SubMs) :
    ∀ G ∈ mergeGroups arr,
      (∀ x ∈ G, x < arr.length) ∧ ∀ x ∈ G, ∀ y ∈ G, rawReach arr x y := by
  apply mergeGroups_pres
  · intro g j hP hj hany
    obtain ⟨m, hm, hedge⟩ := List.any_eq_true.mp hany
    constructor
    · intro x hx
      rcases List.mem_append.mp hx with h | h
      · exact hP.1 x h
      · rw [List.mem_singleton.mp h]; exact hj
    · have hmj : rawStep arr m j := ⟨hP.1 m hm, hj, hedge⟩
      intro x hx y hy
      rcases List.mem_append.mp hx with hx1 | hx2 <;>
        rcases List.mem_append.mp hy with hy1 | hy2
      · exact hP.2 x hx1 y hy1
      · rw [List.mem_singleton.mp hy2]
        exact Relation.ReflTransGen.tail (hP.2 x hx1 m hm) hmj
      · rw [List.mem_singleton.mp hx2]
        exact rawReach_symm arr (Relation.ReflTransGen.tail (hP.2 y hy1 m hm) hmj)
      · rw [List.mem_singleton.mp hx2, List.mem_singleton.mp hy2]
        exact Relation.ReflTransGen.refl
  · intro i hi
    refine ⟨fun x hx => ?_, fun x hx y hy => ?_⟩
    · rw [List.mem_singleton.mp hx]; exact hi
    · rw [List.mem_singleton.mp hx, List.mem_singleton.mp hy]
      exact Relation.ReflTransGen.refl

/-- Claim C2 (amended): `mergeOverlappingSubtitles` places two cue positions
in the same merged group iff they are connected by a chain of pairwise
*raw* positive overlaps (`startMs < other.endMs` and `other.startMs <
endMs`) — not the 500 ms `hasIntersection` predicate: a positive overlap of
at most 500 ms still fuses (see the counterexample theorem), while merely
touching cues do not. -/
theorem c2_groups_are_raw_overlap_components (subs : List Subtitle) (i j : Nat)
    (hi : i < subs.length) (_hj : j < subs.length) :
    (∃ G ∈ mergeGroups (subs.map withMs), i ∈ G ∧ j ∈ G) ↔
      rawReach (subs.map withMs) i j := by
  have hn : (subs.map withMs).length = subs.length := List.length_map _ _
  constructor
  · rintro ⟨G, hG, hiG, hjG⟩
    exact (mergeGroups_bounded_connected (subs.map withMs) G hG).2 i hiG j hjG
  · intro hreach
    clear _hj
    induction hreach with
    | refl =>
      have hcov := mergeLoop_coverage (subs.map withMs)
        (List.range (subs.map withMs).length) [] i
        (List.mem_range.mpr (hn ▸ hi))
      rw [List.nil_append] at hcov
      obtain ⟨G, hG, hiG⟩ := List.mem_flatten.mp hcov
      exact ⟨G, hG, hiG, hiG⟩
    | tail hab hbc ihp =>
      obtain ⟨G, hG, hiG, hbG⟩ := ihp
      obtain ⟨hb, hc, hedge⟩ := hbc
      refine ⟨G, hG, hiG, ?_⟩
      exact mergeLoop_closed (subs.map withMs)
        (List.range (subs.map withMs).length) [] List.nodup_nil
        (fun y hy => absurd hy (List.not_mem_nil _))
        (fun x hx => List.mem_range.mp hx) G hG _ hbG _ hc
        (List.not_mem_nil _) hedge

/-- Witness for C2: in the two-cue track with a 1 ms overlap, positions 0
and 1 are in the same merged group, hence raw-overlap connected. -/
theorem c2_groups_are_raw_overlap_components_witness :
    rawReach ([⟨"1", "00:00:00,000", "00:00:01,000", "a"⟩,
               ⟨"2", "00:00:00,999", "00:00:02,000", "b"⟩].map withMs) 0 1 :=
  (c2_groups_are_raw_overlap_components
    [⟨"1", "00:00:00,000", "00:00:01,000", "a"⟩,
     ⟨"2", "00:00:00,999", "00:00:02,000", "b"⟩] 0 1
    (by decide) (by decide)).mp (by decide)

/-- Counterexample to C2 as stated: two adjacent cues overlapping by 1 ms —
below the 500 ms threshold, `hasIntersection` is false — are nevertheless
fused into a single merged cue. -/
theorem c2_counterexample_threshold_not_used :
    mergeOverlappingSubtitles
      [⟨"1", "00:00:00,000", "00:00:01,000", "a"⟩,
       ⟨"2", "00:00:00,999", "00:00:02,000", "b"⟩] =
      [⟨"1", "00:00:00,000", "00:00:02,000", "a\nb"⟩] ∧
    hasIntersection "00:00:00,000" "00:00:01,000" "00:00:00,999" "00:00:02,000" = false :=
  ⟨by decide, by decide⟩

/-! ## Sorting facts for the merged-cue span -/

theorem sortByStart_perm (M : List SubMs) :
    (List.insertionSort (fun a b : SubMs => a.startMs ≤ b.startMs) M).Perm M :=
  List.perm_insertionSort _ M

theorem sortByStart_sorted (M : List SubMs) :
    List.Sorted (fun a b : SubMs => a.startMs ≤ b.startMs)
      (List.insertionSort (fun a b : SubMs => a.startMs ≤ b.startMs) M) :=
  List.sorted_insertionSort _ M

theorem sortByStart_ne_nil (M : List SubMs) (hM : M ≠ []) :
    List.insertionSort (fun a b : SubMs => a.startMs ≤ b.startMs) M ≠ [] := by
  intro h
  have hperm := sortByStart_perm M
  rw [h] at hperm
  exact hM hperm.symm.eq_nil

theorem sorted_headD_min (M : List SubMs) (hM : M ≠ []) :
    ((List.insertionSort (fun a b : SubMs => a.startMs ≤ b.startMs) M).headD default ∈ M) ∧
    ∀ m ∈ M, ((List.insertionSort (fun a b : SubMs => a.startMs ≤ b.startMs) M).headD
      default).startMs ≤ m.startMs := by
  have hperm := sortByStart_perm M
  have hsort := sortByStart_sorted M
  cases hsorted : List.insertionSort (fun a b : SubMs => a.startMs ≤ b.startMs) M with
  | nil => exact absurd hsorted (sortByStart_ne_nil M hM)
  | cons a t =>
    rw [hsorted] at hperm hsort
    simp only [List.headD_cons]
    constructor
    · exact hperm.mem_iff.mp (List.mem_cons_self _ _)
    · intro m hm
      rcases List.mem_cons.mp (hperm.mem_iff.mpr hm) with h | h
      · rw [h]
      · exact (List.sorted_cons.mp hsort).1 m h

theorem sorted_le_getLastD_aux :
    ∀ (l : List SubMs) (a x : SubMs),
      List.Sorted (fun a b : SubMs => a.startMs ≤ b.startMs) (a :: l) → x ∈ a :: l →
      x.startMs ≤ ((a :: l).getLastD default).startMs := by
  intro l
  induction l with
  | nil =>
    intro a x _ hx
    rw [List.mem_singleton.mp hx]
    simp [List.getLastD_cons]
  | cons b t ih =>
    intro a x hs hx
    have hstep : ((a :: b :: t).getLastD default) = ((b :: t).getLastD default) := by
      rw [List.getLastD_cons, List.getLastD_cons, List.getLastD_cons]
    rw [hstep]
    have hs2 : List.Sorted (fun a b : SubMs => a.startMs ≤ b.startMs) (b :: t) :=
      (List.sorted_cons.mp hs).2
    rcases List.mem_cons.mp hx with hxa | hxbt
    · subst hxa
      have hab : x.startMs ≤ b.startMs :=
        (List.sorted_cons.mp hs).1 b (List.mem_cons_self _ _)
      exact le_trans hab (ih b b hs2 (List.mem_cons_self _ _))
    · exact ih b x hs2 hxbt

theorem sorted_getLastD_max (M : List SubMs) (hM : M ≠ []) :
    ((List.insertionSort (fun a b : SubMs => a.startMs ≤ b.startMs) M).getLastD default ∈ M) ∧
    ∀ m ∈ M, m.startMs ≤ ((List.insertionSort (fun a b : SubMs => a.startMs ≤ b.startMs)
      M).getLastD default).startMs := by
  have hperm := sortByStart_perm M
  have hsort := sortByStart_sorted M
  cases hsorted : List.insertionSort (fun a b : SubMs => a.startMs ≤ b.startMs) M with
  | nil => exact absurd hsorted (sortByStart_ne_nil M hM)
  | cons a t =>
    rw [hsorted] at hperm hsort
    constructor
    · have : (a :: t).getLastD default ∈ a :: t := by
        rw [List.getLastD_cons]
        exact List.getLastD_mem_cons _ _
      exact hperm.mem_iff.mp this
    · intro m hm
      exact sorted_le_getLastD_aux t a m hsort (hperm.mem_iff.mpr hm)

theorem mergeLoop_groups_ne_nil (arr : List SubMs) :
    ∀ (is p : List Nat), ∀ G ∈ mergeLoop arr is p, G ≠ [] := by
  intro is
  induction is with
  | nil => intro p G hG; cases hG
  | cons i rest ih =>
    intro p G hG
    by_cases hc : p.contains i = true
    · rw [mergeLoop_cons_skip arr i rest p hc] at hG
      exact ih p G hG
    · rw [mergeLoop_cons_grow arr i rest p hc] at hG
      obtain ⟨Δ, h1, -, -⟩ := growGroup_spec arr (arr.length + 1) [i] (p ++ [i])
      rw [h1] at hG
      rcases List.mem_cons.mp hG with hG1 | hG2
      · subst hG1
        simp
      · exact ih _ G hG2

theorem withMs_mem_consistent (subs : List Subtitle) :
    ∀ m ∈ subs.map withMs, m.startMs = srtTimeToMs m.start ∧ m.endMs = srtTimeToMs m.«end» := by
  intro m hm
  obtain ⟨s, -, rfl⟩ := List.mem_map.mp hm
  exact ⟨rfl, rfl⟩

theorem subAt_mem (arr : List SubMs) (i : Nat) (hi : i < arr.length) :
    subAt arr i ∈ arr := by
  unfold subAt
  rw [List.getD_eq_getElem arr default hi]
  exact List.getElem_mem hi

/-- Claim C3 (amended): each merged cue spans from the start of an
earliest-starting group member to the end of a latest-starting member (not
the maximum end of the group), and each multi-cue replacement cue spans from the
first to the last overlapping target cue in track order (not
`[min start, max end]` of the group). -/
theorem c3_group_spans (subs : List Subtitle) :
    (∀ G ∈ mergeGroups (subs.map withMs),
      ∃ a ∈ G.map (subAt (subs.map withMs)), ∃ b ∈ G.map (subAt (subs.map withMs)),
        (mergedCueOfGroup (subs.map withMs) G).start = a.start ∧
        (∀ m ∈ G.map (subAt (subs.map withMs)), a.startMs ≤ m.startMs) ∧
        (mergedCueOfGroup (subs.map withMs) G).«end» = b.«end» ∧
        (∀ m ∈ G.map (subAt (subs.map withMs)), m.startMs ≤ b.startMs)) ∧
    (∀ (targetSubs nativeSubs : List Subtitle) (st : FuseState) (cue : Subtitle),
      intersectingNativeSubsOf nativeSubs cue ≠ [] →
      overlappingTargetSubsOf targetSubs st.processedTargetIndices
          (combineNativeSubs (intersectingNativeSubsOf nativeSubs cue)) ≠ [] →
      (fuseMultiPath targetSubs nativeSubs st cue).finalSubtitles =
        st.finalSubtitles ++
          [{ index := "",
             start := ((overlappingTargetSubsOf targetSubs st.processedTargetIndices
               (combineNativeSubs (intersectingNativeSubsOf nativeSubs cue))).headD
                 default).start,
             «end» := ((overlappingTargetSubsOf targetSubs st.processedTargetIndices
               (combineNativeSubs (intersectingNativeSubsOf nativeSubs cue))).getLastD
                 default).«end»,
             text := (combineNativeSubs (intersectingNativeSubsOf nativeSubs cue)).text }]) := by
  constructor
  · intro G hG
    have hGne : G ≠ [] := mergeLoop_groups_ne_nil _ _ _ G hG
    have hMne : G.map (subAt (subs.map withMs)) ≠ [] := by
      intro h
      exact hGne (List.map_eq_nil_iff.mp h)
    obtain ⟨hha, hmin⟩ := sorted_headD_min _ hMne
    obtain ⟨hhb, hmax⟩ := sorted_getLastD_max _ hMne
    exact ⟨_, hha, _, hhb, rfl, hmin, rfl, hmax⟩
  · intro targetSubs nativeSubs st cue h3 h4
    rw [fuseMultiPath_replace targetSubs nativeSubs st cue h3 h4]

/-- Witness for C3: the span description applied to the single merged group
of the nested-cue track. -/
theorem c3_group_spans_witness :
    ∃ a ∈ [0, 1].map (subAt ([⟨"1", "00:00:00,000", "00:00:10,000", "a"⟩,
        ⟨"2", "00:00:01,000", "00:00:02,000", "b"⟩].map withMs)),
    ∃ b ∈ [0, 1].map (subAt ([⟨"1", "00:00:00,000", "00:00:10,000", "a"⟩,
        ⟨"2", "00:00:01,000", "00:00:02,000", "b"⟩].map withMs)),
      (mergedCueOfGroup ([⟨"1", "00:00:00,000", "00:00:10,000", "a"⟩,
          ⟨"2", "00:00:01,000", "00:00:02,000", "b"⟩].map withMs) [0, 1]).start = a.start ∧
      (∀ m ∈ [0, 1].map (subAt ([⟨"1", "00:00:00,000", "00:00:10,000", "a"⟩,
          ⟨"2", "00:00:01,000", "00:00:02,000", "b"⟩].map withMs)), a.startMs ≤ m.startMs) ∧
      (mergedCueOfGroup ([⟨"1", "00:00:00,000", "00:00:10,000", "a"⟩,
          ⟨"2", "00:00:01,000", "00:00:02,000", "b"⟩].map withMs) [0, 1]).«end» = b.«end» ∧
      (∀ m ∈ [0, 1].map (subAt ([⟨"1", "00:00:00,000", "00:00:10,000", "a"⟩,
          ⟨"2", "00:00:01,000", "00:00:02,000", "b"⟩].map withMs)), m.startMs ≤ b.startMs) :=
  (c3_group_spans [⟨"1", "00:00:00,000", "00:00:10,000", "a"⟩,
    ⟨"2", "00:00:01,000", "00:00:02,000", "b"⟩]).1 [0, 1] (by decide)

/-- Counterexample to C3 as stated: merging the nested pair
`[0s,10s]`, `[1s,2s]` yields one cue ending at 2 s — the end of the
latest-starting member — although the maximum end over the group is 10 s. -/
theorem c3_counterexample_end_not_max :
    mergeOverlappingSubtitles
      [⟨"1", "00:00:00,000", "00:00:10,000", "a"⟩,
       ⟨"2", "00:00:01,000", "00:00:02,000", "b"⟩] =
      [⟨"1", "00:00:00,000", "00:00:02,000", "a\nb"⟩] ∧
    srtTimeToMs "00:00:02,000" < srtTimeToMs "00:00:10,000" :=
  ⟨by decide, by decide⟩

/-! ## Idempotence machinery: group interval coverage -/

theorem mergeOverlapsB_eq_true_iff (a b : SubMs) :
    mergeOverlapsB a b = true ↔ a.startMs < b.endMs ∧ b.startMs < a.endMs := by
  unfold mergeOverlapsB
  rw [Bool.and_eq_true, decide_eq_true_iff, decide_eq_true_iff]

theorem Cover_singleton (c : SubMs) : Cover [c] := by
  intro x hs he
  obtain ⟨m, hm, h1⟩ := hs
  obtain ⟨m2, hm2, h2⟩ := he
  rw [List.mem_singleton.mp hm] at h1
  rw [List.mem_singleton.mp hm2] at h2
  exact ⟨c, List.mem_singleton_self _, h1, h2⟩

theorem StrictCover_singleton (c : SubMs) : StrictCover [c] := by
  intro x hs he
  obtain ⟨m, hm, h1⟩ := hs
  obtain ⟨m2, hm2, h2⟩ := he
  rw [List.mem_singleton.mp hm] at h1
  rw [List.mem_singleton.mp hm2] at h2
  exact ⟨c, List.mem_singleton_self _, h1, h2⟩

theorem Cover_snoc (M : List SubMs) (c m0 : SubMs) (hm0 : m0 ∈ M)
    (hedge : mergeOverlapsB m0 c = true) (hcov : Cover M) : Cover (M ++ [c]) := by
  obtain ⟨he1, he2⟩ := (mergeOverlapsB_eq_true_iff m0 c).mp hedge
  intro x hs he
  by_cases hsM : ∃ m ∈ M, m.startMs ≤ x
  · by_cases heM : ∃ m ∈ M, x < m.endMs
    · obtain ⟨m, hm, h1, h2⟩ := hcov x hsM heM
      exact ⟨m, List.mem_append_left _ hm, h1, h2⟩
    · -- every member of M ends at or before x; the new cue c must witness the end
      have hallM : ∀ m ∈ M, m.endMs ≤ x := by
        intro m hm
        by_contra hlt
        exact heM ⟨m, hm, by omega⟩
      have hxc : x < c.endMs := by
        obtain ⟨m, hm, h2⟩ := he
        rcases List.mem_append.mp hm with h | h
        · exact absurd (hallM m h) (by omega)
        · rw [List.mem_singleton.mp h] at h2; exact h2
      refine ⟨c, List.mem_append_right _ (List.mem_singleton_self _), ?_, hxc⟩
      have := hallM m0 hm0
      omega
  · -- every member of M starts after x; the new cue c must witness the start
    have hallM : ∀ m ∈ M, x < m.startMs := by
      intro m hm
      by_contra hlt
      exact hsM ⟨m, hm, by omega⟩
    have hxc : c.startMs ≤ x := by
      obtain ⟨m, hm, h1⟩ := hs
      rcases List.mem_append.mp hm with h | h
      · exact absurd (hallM m h) (by omega)
      · rw [List.mem_singleton.mp h] at h1; exact h1
    refine ⟨c, List.mem_append_right _ (List.mem_singleton_self _), hxc, ?_⟩
    have := hallM m0 hm0
    omega

theorem StrictCover_snoc (M : List SubMs) (c m0 : SubMs) (hm0 : m0 ∈ M)
    (hedge : mergeOverlapsB m0 c = true) (hcov : StrictCover M) :
    StrictCover (M ++ [c]) := by
  obtain ⟨he1, he2⟩ := (mergeOverlapsB_eq_true_iff m0 c).mp hedge
  intro x hs he
  by_cases hsM : ∃ m ∈ M, m.startMs < x
  · by_cases heM : ∃ m ∈ M, x < m.endMs
    · obtain ⟨m, hm, h1, h2⟩ := hcov x hsM heM
      exact ⟨m, List.mem_append_left _ hm, h1, h2⟩
    · have hallM : ∀ m ∈ M, m.endMs ≤ x := by
        intro m hm
        by_contra hlt
        exact heM ⟨m, hm, by omega⟩
      have hxc : x < c.endMs := by
        obtain ⟨m, hm, h2⟩ := he
        rcases List.mem_append.mp hm with h | h
        · exact absurd (hallM m h) (by omega)
        · rw [List.mem_singleton.mp h] at h2; exact h2
      refine ⟨c, List.mem_append_right _ (List.mem_singleton_self _), ?_, hxc⟩
      have := hallM m0 hm0
      omega
  · have hallM : ∀ m ∈ M, x ≤ m.startMs := by
      intro m hm
      by_contra hlt
      exact hsM ⟨m, hm, by omega⟩
    have hxc : c.startMs < x := by
      obtain ⟨m, hm, h1⟩ := hs
      rcases List.mem_append.mp hm with h | h
      · exact absurd (hallM m h) (by omega)
      · rw [List.mem_singleton.mp h] at h1; exact h1
    refine ⟨c, List.mem_append_right _ (List.mem_singleton_self _), hxc, ?_⟩
    have := hallM m0 hm0
    omega

theorem mergeGroups_cover (arr : List SubMs) :
    ∀ G ∈ mergeGroups arr,
      Cover (G.map (subAt arr)) ∧ StrictCover (G.map (subAt arr)) := by
  apply mergeGroups_pres
  · intro g j hP hj hany
    obtain ⟨m, hm, hedge⟩ := List.any_eq_true.mp hany
    rw [List.map_append]
    constructor
    · exact Cover_snoc _ _ (subAt arr m) (List.mem_map_of_mem _ hm) hedge hP.1
    · exact StrictCover_snoc _ _ (subAt arr m) (List.mem_map_of_mem _ hm) hedge hP.2
  · intro i _
    exact ⟨Cover_singleton _, StrictCover_singleton _⟩

/-- The analytic core of idempotence: two groups with no raw overlap
between any pair of members, each covering its range gap-free, with all
members well formed (`startMs ≤ endMs`), have non-overlapping spans, where
a span runs from the start of an earliest-starting member to the end of a
latest-starting member. -/
theorem span_noedge (A B : List SubMs) (aMin aLast bMin bLast : SubMs)
    (haMin : aMin ∈ A) (haLast : aLast ∈ A) (hbMin : bMin ∈ B) (hbLast : bLast ∈ B)
    (haMinLe : ∀ m ∈ A, aMin.startMs ≤ m.startMs)
    (haLastGe : ∀ m ∈ A, m.startMs ≤ aLast.startMs)
    (hbMinLe : ∀ m ∈ B, bMin.startMs ≤ m.startMs)
    (hbLastGe : ∀ m ∈ B, m.startMs ≤ bLast.startMs)
    (hAwf : ∀ m ∈ A, m.startMs ≤ m.endMs) (hBwf : ∀ m ∈ B, m.startMs ≤ m.endMs)
    (hAcov : Cover A) (hAsc : StrictCover A) (hBcov : Cover B) (hBsc : StrictCover B)
    (hnoedge : ∀ a ∈ A, ∀ b ∈ B, mergeOverlapsB a b = false) :
    ¬(aMin.startMs < bLast.endMs ∧ bMin.startMs < aLast.endMs) := by
  rintro ⟨h1, h2⟩
  have haEnd : aLast.startMs ≤ aLast.endMs := hAwf aLast haLast
  have hbEnd : bLast.startMs ≤ bLast.endMs := hBwf bLast hbLast
  have haMinLast : aMin.startMs ≤ aLast.startMs := haMinLe aLast haLast
  have hbMinLast : bMin.startMs ≤ bLast.startMs := hbMinLe bLast hbLast
  by_cases hA : aMin.startMs < aLast.endMs
  · by_cases hB : bMin.startMs < bLast.endMs
    · -- both spans proper: a common covered point yields a cross edge
      set x := max aMin.startMs bMin.startMs with hx
      have hxa : ∃ m ∈ A, m.startMs ≤ x ∧ x < m.endMs := by
        apply hAcov x ⟨aMin, haMin, le_max_left _ _⟩
        refine ⟨aLast, haLast, ?_⟩
        rw [hx]
        omega
      have hxb : ∃ m ∈ B, m.startMs ≤ x ∧ x < m.endMs := by
        apply hBcov x ⟨bMin, hbMin, le_max_right _ _⟩
        refine ⟨bLast, hbLast, ?_⟩
        rw [hx]
        omega
      obtain ⟨a, ha, ha1, ha2⟩ := hxa
      obtain ⟨b, hb, hb1, hb2⟩ := hxb
      have : mergeOverlapsB a b = true :=
        (mergeOverlapsB_eq_true_iff a b).mpr ⟨by omega, by omega⟩
      rw [hnoedge a ha b hb] at this
      cases this
    · -- B degenerate: every member of B starts at P := bMin.startMs
      have hPeq : bLast.endMs ≤ bMin.startMs := by omega
      have hballP : ∀ m ∈ B, m.startMs = bMin.startMs := by
        intro m hm
        have h3 := hbMinLe m hm
        have h4 := hbLastGe m hm
        omega
      -- a point strictly inside some member of A at P := bMin.startMs
      have hstrict : ∃ m ∈ A, m.startMs < bMin.startMs ∧ bMin.startMs < m.endMs := by
        apply hAsc bMin.startMs
        · exact ⟨aMin, haMin, by omega⟩
        · exact ⟨aLast, haLast, by omega⟩
      obtain ⟨a, ha, ha1, ha2⟩ := hstrict
      have hbwfMin : bMin.startMs ≤ bMin.endMs := hBwf bMin hbMin
      have : mergeOverlapsB a bMin = true :=
        (mergeOverlapsB_eq_true_iff a bMin).mpr ⟨by omega, by omega⟩
      rw [hnoedge a ha bMin hbMin] at this
      cases this
  · -- A degenerate: every member of A starts at aMin.startMs
    have hPeq : aLast.endMs ≤ aMin.startMs := by omega
    have haallP : ∀ m ∈ A, m.startMs = aMin.startMs := by
      intro m hm
      have h3 := haMinLe m hm
      have h4 := haLastGe m hm
      omega
    have hstrict : ∃ m ∈ B, m.startMs < aMin.startMs ∧ aMin.startMs < m.endMs := by
      apply hBsc aMin.startMs
      · exact ⟨bMin, hbMin, by omega⟩
      · exact ⟨bLast, hbLast, by omega⟩
    obtain ⟨b, hb, hb1, hb2⟩ := hstrict
    have hawfMin : aMin.startMs ≤ aMin.endMs := hAwf aMin haMin
    have : mergeOverlapsB aMin b = true :=
      (mergeOverlapsB_eq_true_iff aMin b).mpr ⟨by omega, by omega⟩
    rw [hnoedge aMin haMin b hb] at this
    cases this

theorem mergeLoop_pairwise_noedge (arr : List SubMs) :
    ∀ (is p : List Nat), p.Nodup → (∀ y ∈ p, y < arr.length) →
      (∀ i ∈ is, i < arr.length) →
      List.Pairwise (fun G H => ∀ a ∈ G, ∀ b ∈ H,
        mergeOverlapsB (subAt arr a) (subAt arr b) = false) (mergeLoop arr is p) := by
  intro is
  induction is with
  | nil => intro p _ _ _; exact List.Pairwise.nil
  | cons i rest ih =>
    intro p hnd hbp his
    by_cases hc : p.contains i = true
    · rw [mergeLoop_cons_skip arr i rest p hc]
      exact ih p hnd hbp (fun y hy => his y (List.mem_cons_of_mem _ hy))
    · rw [mergeLoop_cons_grow arr i rest p hc]
      obtain ⟨Δ, h1, h2, h3⟩ := growGroup_spec arr (arr.length + 1) [i] (p ++ [i])
      have hi_n : i < arr.length := his i (List.mem_cons_self _ _)
      have hpi_nd : (p ++ [i]).Nodup := by
        rw [List.nodup_append]
        refine ⟨hnd, List.nodup_singleton _, fun x hx1 hx2 => ?_⟩
        rw [List.mem_singleton.mp hx2] at hx1
        exact (by simpa using hc : i ∉ p) hx1
      have hpi_b : ∀ y ∈ p ++ [i], y < arr.length := by
        intro y hy
        rcases List.mem_append.mp hy with h | h
        · exact hbp y h
        · rw [List.mem_singleton.mp h]; exact hi_n
      have hfuel : arr.length < (arr.length + 1) + (p ++ [i]).length := by omega
      have hstab2 : ∀ x, x < arr.length → x ∉ (p ++ [i]) ++ Δ →
          ∀ m ∈ [i] ++ Δ, mergeOverlapsB (subAt arr m) (subAt arr x) = false := by
        intro x hx hxp m hm
        have h := growGroup_stable arr (arr.length + 1) [i] (p ++ [i]) hpi_nd hpi_b hfuel x hx
        rw [h1] at h
        exact h hxp m hm
      have hp2_nd : ((p ++ [i]) ++ Δ).Nodup := by
        rw [List.nodup_append]
        exact ⟨hpi_nd, h2, fun x hx1 hx2 => (h3 x hx2).2 hx1⟩
      have hp2_b : ∀ y ∈ (p ++ [i]) ++ Δ, y < arr.length := by
        intro y hy
        rcases List.mem_append.mp hy with h | h
        · exact hpi_b y h
        · exact (h3 y h).1
      rw [h1]
      refine List.pairwise_cons.mpr ⟨?_, ?_⟩
      · intro H hH a ha b hb
        have hbmem := mergeLoop_mem_bound arr rest ((p ++ [i]) ++ Δ)
          (fun y hy => his y (List.mem_cons_of_mem _ hy)) H hH b hb
        exact hstab2 b hbmem.1 hbmem.2 a ha
      · exact ih ((p ++ [i]) ++ Δ) hp2_nd hp2_b
          (fun y hy => his y (List.mem_cons_of_mem _ hy))

theorem group_members_in_arr (arr : List SubMs) (G : List Nat)
    (hb : ∀ pos ∈ G, pos < arr.length) :
    ∀ x ∈ G.map (subAt arr), x ∈ arr := by
  intro x hx
  obtain ⟨pos, hpos, rfl⟩ := List.mem_map.mp hx
  exact subAt_mem arr pos (hb pos hpos)

theorem arr_wf (subs : List Subtitle)
    (hwf : ∀ s ∈ subs, srtTimeToMs s.start ≤ srtTimeToMs s.«end») :
    ∀ m ∈ subs.map withMs, m.startMs ≤ m.endMs := by
  intro m hm
  obtain ⟨s, hs, rfl⟩ := List.mem_map.mp hm
  exact hwf s hs

/-- On a well-formed track, the merged cues emitted by the merger have
pairwise non-overlapping spans (in the raw-overlap sense used by the
merger itself). -/
theorem merged_spans_noedge (subs : List Subtitle)
    (hwf : ∀ s ∈ subs, srtTimeToMs s.start ≤ srtTimeToMs s.«end») :
    List.Pairwise (fun c d : Subtitle =>
      mergeOverlapsB (withMs c) (withMs d) = false)
      (mergeOverlappingSubtitles subs) := by
  rw [mergeOverlapping_eq_map subs, List.pairwise_map]
  have hpair : List.Pairwise (fun G H => ∀ a ∈ G, ∀ b ∈ H,
      mergeOverlapsB (subAt (subs.map withMs) a) (subAt (subs.map withMs) b) = false)
      (mergeGroups (subs.map withMs)) :=
    mergeLoop_pairwise_noedge (subs.map withMs) (List.range (subs.map withMs).length) []
      List.nodup_nil (fun y hy => absurd hy (List.not_mem_nil _))
      (fun i hi => List.mem_range.mp hi)
  refine hpair.imp_of_mem ?_
  intro G H hG hH hRab
  have hGb : ∀ pos ∈ G, pos < (subs.map withMs).length := fun pos hpos =>
    (mergeLoop_mem_bound (subs.map withMs) (List.range (subs.map withMs).length) []
      (fun i hi => List.mem_range.mp hi) G hG pos hpos).1
  have hHb : ∀ pos ∈ H, pos < (subs.map withMs).length := fun pos hpos =>
    (mergeLoop_mem_bound (subs.map withMs) (List.range (subs.map withMs).length) []
      (fun i hi => List.mem_range.mp hi) H hH pos hpos).1
  have hGne : G ≠ [] := mergeLoop_groups_ne_nil _ _ _ G hG
  have hHne : H ≠ [] := mergeLoop_groups_ne_nil _ _ _ H hH
  have hMGne : G.map (subAt (subs.map withMs)) ≠ [] := fun h =>
    hGne (List.map_eq_nil_iff.mp h)
  have hMHne : H.map (subAt (subs.map withMs)) ≠ [] := fun h =>
    hHne (List.map_eq_nil_iff.mp h)
  obtain ⟨haMin, haMinLe⟩ := sorted_headD_min _ hMGne
  obtain ⟨haLast, haLastGe⟩ := sorted_getLastD_max _ hMGne
  obtain ⟨hbMin, hbMinLe⟩ := sorted_headD_min _ hMHne
  obtain ⟨hbLast, hbLastGe⟩ := sorted_getLastD_max _ hMHne
  have hGarr := group_members_in_arr (subs.map withMs) G hGb
  have hHarr := group_members_in_arr (subs.map withMs) H hHb
  have hGwf : ∀ m ∈ G.map (subAt (subs.map withMs)), m.startMs ≤ m.endMs :=
    fun m hm => arr_wf subs hwf m (hGarr m hm)
  have hHwf : ∀ m ∈ H.map (subAt (subs.map withMs)), m.startMs ≤ m.endMs :=
    fun m hm => arr_wf subs hwf m (hHarr m hm)
  obtain ⟨hGcov, hGsc⟩ := mergeGroups_cover (subs.map withMs) G hG
  obtain ⟨hHcov, hHsc⟩ := mergeGroups_cover (subs.map withMs) H hH
  have hval : ∀ va ∈ G.map (subAt (subs.map withMs)),
      ∀ vb ∈ H.map (subAt (subs.map withMs)), mergeOverlapsB va vb = false := by
    intro va hva vb hvb
    obtain ⟨pa, hpa, rfl⟩ := List.mem_map.mp hva
    obtain ⟨pb, hpb, rfl⟩ := List.mem_map.mp hvb
    exact hRab pa hpa pb hpb
  have hspan := span_noedge (G.map (subAt (subs.map withMs)))
    (H.map (subAt (subs.map withMs))) _ _ _ _ haMin haLast hbMin hbLast
    haMinLe haLastGe hbMinLe hbLastGe hGwf hHwf hGcov hGsc hHcov hHsc hval
  -- translate the span facts to the re-annotated merged cues
  have hGstart : (withMs (mergedCueOfGroup (subs.map withMs) G)).startMs =
      ((List.insertionSort (fun a b : SubMs => a.startMs ≤ b.startMs)
        (G.map (subAt (subs.map withMs)))).headD default).startMs := by
    have hmem := withMs_mem_consistent subs _ (hGarr _ haMin)
    exact hmem.1.symm
  have hGend : (withMs (mergedCueOfGroup (subs.map withMs) G)).endMs =
      ((List.insertionSort (fun a b : SubMs => a.startMs ≤ b.startMs)
        (G.map (subAt (subs.map withMs)))).getLastD default).endMs := by
    have hmem := withMs_mem_consistent subs _ (hGarr _ haLast)
    exact hmem.2.symm
  have hHstart : (withMs (mergedCueOfGroup (subs.map withMs) H)).startMs =
      ((List.insertionSort (fun a b : SubMs => a.startMs ≤ b.startMs)
        (H.map (subAt (subs.map withMs)))).headD default).startMs := by
    have hmem := withMs_mem_consistent subs _ (hHarr _ hbMin)
    exact hmem.1.symm
  have hHend : (withMs (mergedCueOfGroup (subs.map withMs) H)).endMs =
      ((List.insertionSort (fun a b : SubMs => a.startMs ≤ b.startMs)
        (H.map (subAt (subs.map withMs)))).getLastD default).endMs := by
    have hmem := withMs_mem_consistent subs _ (hHarr _ hbLast)
    exact hmem.2.symm
  apply Bool.eq_false_iff.mpr
  intro htrue
  obtain ⟨ho1, ho2⟩ := (mergeOverlapsB_eq_true_iff _ _).mp htrue
  rw [hGstart, hHend] at ho1
  rw [hHstart, hGend] at ho2
  exact hspan ⟨ho1, ho2⟩

theorem passFold_no_additions (arr : List SubMs) (js : List Nat) (st : PassSt)
    (h : ∀ j ∈ js, st.processed.contains j = true ∨
      (st.group.any fun m => mergeOverlapsB (subAt arr m) (subAt arr j)) = false) :
    js.foldl (passStep arr) st = st := by
  induction js with
  | nil => rfl
  | cons j rest ih =>
    rw [List.foldl_cons]
    have hstep : passStep arr st j = st := by
      unfold passStep
      rcases h j (List.mem_cons_self _ _) with hc | hno
      · rw [if_pos hc]
      · by_cases hc2 : st.processed.contains j = true
        · rw [if_pos hc2]
        · rw [if_neg hc2, if_neg (by rw [hno]; exact Bool.false_ne_true)]
    rw [hstep]
    exact ih (fun x hx => h x (List.mem_cons_of_mem _ hx))

theorem growGroup_singleton (arr : List SubMs) (fuel : Nat) (i : Nat) (p : List Nat)
    (hno : ∀ j, j < arr.length → j ≠ i →
      mergeOverlapsB (subAt arr i) (subAt arr j) = false) :
    growGroup arr fuel [i] (p ++ [i]) = ([i], p ++ [i]) := by
  cases fuel with
  | zero => rfl
  | succ fuel =>
    have hop : onePass arr [i] (p ++ [i]) = ⟨[i], p ++ [i], false⟩ := by
      unfold onePass
      apply passFold_no_additions
      intro j hj
      by_cases hji : j = i
      · subst hji
        exact Or.inl (by
          simp only [List.elem_eq_mem, decide_eq_true_eq]
          exact List.mem_append_right _ (List.mem_singleton_self _))
      · refine Or.inr ?_
        simp only [List.any_cons, List.any_nil, Bool.or_false]
        exact hno j (List.mem_range.mp hj) hji
    show (let st := onePass arr [i] (p ++ [i]);
      if st.found = true then growGroup arr fuel st.group st.processed
      else (st.group, st.processed)) = ([i], p ++ [i])
    rw [hop]
    rfl

theorem mergeLoop_singletons (arr : List SubMs) :
    ∀ (is p : List Nat), is.Nodup → (∀ i ∈ is, i ∉ p) →
      (∀ a b, a < arr.length → b < arr.length → a ≠ b →
        mergeOverlapsB (subAt arr a) (subAt arr b) = false) →
      (∀ i ∈ is, i < arr.length) →
      mergeLoop arr is p = is.map (fun i => [i]) := by
  intro is
  induction is with
  | nil => intro p _ _ _ _; rfl
  | cons i rest ih =>
    intro p hnd hnp hglobal his
    have hc : ¬p.contains i = true := by
      simp only [List.elem_eq_mem, decide_eq_true_eq]
      exact hnp i (List.mem_cons_self _ _)
    rw [mergeLoop_cons_grow arr i rest p hc]
    have hi_n : i < arr.length := his i (List.mem_cons_self _ _)
    have hgrow := growGroup_singleton arr (arr.length + 1) i p
      (fun j hj hji => hglobal i j hi_n hj (fun h => hji h.symm))
    rw [hgrow]
    simp only [List.map_cons]
    congr 1
    apply ih (p ++ [i]) (List.nodup_cons.mp hnd).2
    · intro x hx hmem
      rcases List.mem_append.mp hmem with h | h
      · exact hnp x (List.mem_cons_of_mem _ hx) h
      · rw [List.mem_singleton.mp h] at hx
        exact (List.nodup_cons.mp hnd).1 hx
    · exact hglobal
    · exact fun x hx => his x (List.mem_cons_of_mem _ hx)

theorem subAt_map_withMs (l : List Subtitle) (k : Nat) (hk : k < l.length) :
    subAt (l.map withMs) k = withMs (l.getD k default) := by
  unfold subAt
  rw [List.getD_eq_getElem _ _ (by simpa using hk), List.getD_eq_getElem _ _ hk,
    List.getElem_map]

theorem mergedCue_singleton (l : List Subtitle) (k : Nat) (hk : k < l.length) :
    mergedCueOfGroup (l.map withMs) [k] = l.getD k default := by
  unfold mergedCueOfGroup
  rw [show ([k].map (subAt (l.map withMs))) = [subAt (l.map withMs) k] from rfl]
  rw [subAt_map_withMs l k hk]
  rfl

theorem range_map_getD (l : List Subtitle) :
    (List.range l.length).map (fun k => l.getD k default) = l := by
  apply List.ext_getElem
  · simp
  · intro i h1 h2
    simp only [List.getElem_map, List.getElem_range]
    rw [List.getD_eq_getElem _ _ h2]

theorem merge_fixed_of_pairwise (l : List Subtitle)
    (h : ∀ a b : Nat, a < l.length → b < l.length → a ≠ b →
      mergeOverlapsB (subAt (l.map withMs) a) (subAt (l.map withMs) b) = false) :
    mergeOverlappingSubtitles l = l := by
  rw [mergeOverlapping_eq_map l]
  have hn : (l.map withMs).length = l.length := List.length_map _ _
  have hsing : mergeGroups (l.map withMs) =
      (List.range (l.map withMs).length).map (fun i => [i]) :=
    mergeLoop_singletons (l.map withMs) (List.range (l.map withMs).length) []
      (List.nodup_range _) (fun i _ => List.not_mem_nil i)
      (fun a b ha hb => h a b (hn ▸ ha) (hn ▸ hb))
      (fun i hi => List.mem_range.mp hi)
  rw [hsing, List.map_map, hn]
  calc List.map (mergedCueOfGroup (l.map withMs) ∘ fun i => [i]) (List.range l.length)
      = List.map (fun k => l.getD k default) (List.range l.length) :=
        List.map_congr_left (fun k hk => mergedCue_singleton l k (List.mem_range.mp hk))
    _ = l := range_map_getD l

theorem pairwise_to_indexed (out : List Subtitle)
    (hp : List.Pairwise (fun c d => mergeOverlapsB (withMs c) (withMs d) = false) out) :
    ∀ a b : Nat, a < out.length → b < out.length → a ≠ b →
      mergeOverlapsB (subAt (out.map withMs) a) (subAt (out.map withMs) b) = false := by
  intro a b ha hb hne
  rw [subAt_map_withMs out a ha, subAt_map_withMs out b hb]
  have hget := List.pairwise_iff_get.mp hp
  rcases Nat.lt_or_ge a b with hab | hba
  · have := hget ⟨a, ha⟩ ⟨b, hb⟩ hab
    rw [List.getD_eq_getElem _ _ ha, List.getD_eq_getElem _ _ hb]
    simpa [List.get_eq_getElem] using this
  · have hba2 : b < a := by omega
    have := hget ⟨b, hb⟩ ⟨a, ha⟩ hba2
    rw [List.getD_eq_getElem _ _ ha, List.getD_eq_getElem _ _ hb, mergeOverlapsB_symm]
    simpa [List.get_eq_getElem] using this

/-- Claim C7 (amended): on every track whose cues are all well formed
(`startMs ≤ endMs` after timestamp conversion), `mergeOverlappingSubtitles`
is idempotent — a second application performs no further grouping and
returns the same cues. (With a malformed cue, whose end precedes its start,
idempotence can fail: see the counterexample theorem.) -/
theorem c7_merge_idempotent_on_wellformed (subs : List Subtitle)
    (hwf : ∀ s ∈ subs, srtTimeToMs s.start ≤ srtTimeToMs s.«end») :
    mergeOverlappingSubtitles (mergeOverlappingSubtitles subs) =
      mergeOverlappingSubtitles subs :=
  merge_fixed_of_pairwise _ (pairwise_to_indexed _ (merged_spans_noedge subs hwf))

/-- Witness for C7 on a concrete well-formed overlapping track. -/
theorem c7_merge_idempotent_on_wellformed_witness :
    mergeOverlappingSubtitles (mergeOverlappingSubtitles
      [⟨"1", "00:00:00,000", "00:00:01,000", "a"⟩,
       ⟨"2", "00:00:00,999", "00:00:02,000", "b"⟩,
       ⟨"3", "00:00:05,000", "00:00:06,000", "c"⟩]) =
      mergeOverlappingSubtitles
      [⟨"1", "00:00:00,000", "00:00:01,000", "a"⟩,
       ⟨"2", "00:00:00,999", "00:00:02,000", "b"⟩,
       ⟨"3", "00:00:05,000", "00:00:06,000", "c"⟩] :=
  c7_merge_idempotent_on_wellformed
    [⟨"1", "00:00:00,000", "00:00:01,000", "a"⟩,
     ⟨"2", "00:00:00,999", "00:00:02,000", "b"⟩,
     ⟨"3", "00:00:05,000", "00:00:06,000", "c"⟩] (by decide)

/-- Counterexample to C7 as stated (for every cue list): with a malformed
cue `[150ms → 120ms]` (end before start, which the data model explicitly
does not rule out), the first pass produces two cues whose spans overlap,
and a second pass merges them: `merge ∘ merge ≠ merge` on this list. -/
theorem c7_counterexample_malformed_not_idempotent :
    mergeOverlappingSubtitles
      [⟨"1", "00:00:00,000", "00:00:00,130", "b1"⟩,
       ⟨"2", "00:00:00,125", "00:00:00,200", "b2"⟩,
       ⟨"3", "00:00:00,150", "00:00:00,120", "x"⟩] =
      [⟨"1", "00:00:00,000", "00:00:00,200", "b1\nb2"⟩,
       ⟨"3", "00:00:00,150", "00:00:00,120", "x"⟩] ∧
    mergeOverlappingSubtitles (mergeOverlappingSubtitles
      [⟨"1", "00:00:00,000", "00:00:00,130", "b1"⟩,
       ⟨"2", "00:00:00,125", "00:00:00,200", "b2"⟩,
       ⟨"3", "00:00:00,150", "00:00:00,120", "x"⟩]) ≠
      mergeOverlappingSubtitles
      [⟨"1", "00:00:00,000", "00:00:00,130", "b1"⟩,
       ⟨"2", "00:00:00,125", "00:00:00,200", "b2"⟩,
       ⟨"3", "00:00:00,150", "00:00:00,120", "x"⟩] :=
  ⟨by decide, by decide⟩
